import Mathlib

set_option maxRecDepth 16000

/-!
Verification of the task-DAG engine of `process_task_dag.py`.

The embedding below translates the engine (topological sorting with cycle
detection, graph construction, pruning of inactive subtrees, serialization
and dot rendering) into executable Lean definitions.  Python dicts are
modelled as insertion-ordered association lists, task attribute values as
strings, and object references between tasks by the (unique) task names.
The recursive `dfs` of `topological_sort` is embedded as an explicit stack
machine (each frame holds a node together with its not-yet-examined
dependency list) driven by a fuel counter that bounds the number of steps;
the fuel bound is proved sufficient below, so the artificial
"recursion limit" error branch is unreachable.
-/

namespace TaskDag

/-- First-match lookup in an association list keyed by strings; models
Python dict lookup (keys are unique in an actual dict). -/
def alookup {α : Type} : List (String × α) → String → Option α
  | [], _ => none
  | (k, v) :: l, n => if k = n then some v else alookup l n

/-- The body of one entry of the raw input mapping: a dict with the two
optional keys `deps` and `data`.  `none` models absence of the key. -/
structure RawBody where
  deps : Option (List String)
  data : Option (List (String × String))
deriving Repr, DecidableEq

/-- The raw input mapping `name -> {deps, data}` in insertion order. -/
abbrev RawInput := List (String × RawBody)

/-- `tasks_structure.get(task_name, {})` of the source. -/
def getBody (ts : RawInput) (n : String) : RawBody :=
  (alookup ts n).getD ⟨none, none⟩

/-- The dependency list `topological_sort` reads for a node:
`graph[node]["deps"] if node in graph and "deps" in graph[node] else ()`. -/
def getDeps (ts : RawInput) (n : String) : List String :=
  match alookup ts n with
  | some b => b.deps.getD []
  | none => []

/-- `task_body.get("data", {})` used when a `Task` is created. -/
def getData (ts : RawInput) (n : String) : List (String × String) :=
  (getBody ts n).data.getD []

/-- Every name appearing in the input: the keys together with every entry
of every `deps` list. -/
def allNames (ts : RawInput) : List String :=
  ts.map Prod.fst ++ (ts.map (fun p => p.2.deps.getD [])).flatten

def GRAY : Nat := 0

def BLACK : Nat := 1

/-- State of `topological_sort`: the output deque `order` (its head is the
leftmost element, so `appendleft` is `cons`), the `enter` set (kept as the
list of not-yet-entered keys) and the colour dict `state`. -/
structure SortSt where
  order : List String
  enter : List String
  state : List (String × Nat)
deriving Repr, DecidableEq

/-- Visiting a name takes one step per dependency entry plus one step to
finish. -/
def nameCost (ts : RawInput) (n : String) : Nat := (getDeps ts n).length + 1

/-- Fuel that is large enough for `dfsRun` (proved below): one unit for
finishing each name plus one unit per dependency entry of each name. -/
def sortCost (ts : RawInput) : Nat :=
  (((allNames ts).dedup).map (nameCost ts)).sum + 1

/-- Colour lookup (`state.get(k, None)`). -/
def lookupSt : List (String × Nat) → String → Option Nat
  | [], _ => none
  | (k, v) :: l, n => if k = n then some v else lookupSt l n

/-- The recursive `dfs` of the source as a stack machine.  A frame
`(node, ks)` is an active `dfs(node)` call whose remaining dependency list
is `ks`.  Entering a node paints it `GRAY`, discards it from `enter` and
pushes a frame with its full dependency list; finishing a frame appends
its node on the left of `order` and paints it `BLACK`; a `GRAY`
dependency raises the cycle error. -/
def dfsRun (ts : RawInput) : Nat → SortSt → List (String × List String) → Except String SortSt
  | 0, _, _ => .error "recursion limit"
  | _ + 1, st, [] => .ok st
  | fuel + 1, st, (node, []) :: stack =>
      dfsRun ts fuel ⟨node :: st.order, st.enter, (node, BLACK) :: st.state⟩ stack
  | fuel + 1, st, (node, k :: ks) :: stack =>
      match lookupSt st.state k with
      | some c =>
        if c = GRAY then .error "Error. Graph contains cycle. Not a DAG."
        else if c = BLACK then dfsRun ts fuel st ((node, ks) :: stack)
        else dfsRun ts fuel ⟨st.order, st.enter.erase k, (k, GRAY) :: st.state⟩
              ((k, getDeps ts k) :: (node, ks) :: stack)
      | none => dfsRun ts fuel ⟨st.order, st.enter.erase k, (k, GRAY) :: st.state⟩
              ((k, getDeps ts k) :: (node, ks) :: stack)

/-- `while enter: dfs(enter.pop())`.  Popping takes the head of the list;
the loop fuel is the number of keys, which only shrink. -/
def sortLoop (ts : RawInput) : Nat → SortSt → Except String SortSt
  | 0, st => if st.enter.isEmpty then .ok st else .error "loop limit"
  | fuel + 1, st =>
    match st.enter with
    | [] => .ok st
    | node :: rest =>
      match dfsRun ts (sortCost ts) ⟨st.order, rest, (node, GRAY) :: st.state⟩
              [(node, getDeps ts node)] with
      | .ok st2 => sortLoop ts fuel st2
      | .error e => .error e

/-- `topological_sort(graph)`: `enter` starts as the set of keys. -/
def topological_sort (ts : RawInput) : Except String (List String) :=
  match sortLoop ts ((ts.map Prod.fst).dedup).length ⟨[], (ts.map Prod.fst).dedup, []⟩ with
  | .ok st => .ok st.order
  | .error e => .error e

/-- A task: `name`, the `data` attribute dict, and the two edge lists,
holding the names of the referenced tasks (names are unique, so a name
stands for the object reference of the source). -/
structure Task where
  name : String
  data : List (String × String)
  dependencies : List String
  predications : List String
deriving Repr, DecidableEq

/-- The graph `names_to_obj`, as its list of values in insertion order
(keys are exactly the task names). -/
abbrev Graph := List Task

def namesOf (g : Graph) : List String := g.map Task.name

/-- `names_to_obj[n]` as a first-match search. -/
def findTask : Graph → String → Option Task
  | [], _ => none
  | t :: g, n => if t.name = n then some t else findTask g n

/-- Apply `f` to the task named `n` (names are unique). -/
def updateTask (g : Graph) (n : String) (f : Task → Task) : Graph :=
  g.map (fun t => if t.name = n then f t else t)

/-- `Task.add_dependency`: append to `self.dependencies` and append the
back reference to `other_task.predications`. -/
def add_dependency (g : Graph) (tname dname : String) : Graph :=
  updateTask (updateTask g tname (fun t => { t with dependencies := t.dependencies ++ [dname] }))
    dname (fun t => { t with predications := t.predications ++ [tname] })

/-- The `for dep in task_body["deps"]` loop of `TaskDAG.__init__`;
`self.names_to_obj[dep]` raises a `KeyError` when the dependency has not
been created yet (unreachable with the reversed topological order). -/
def add_deps (g : Graph) (tname : String) : List String → Except String Graph
  | [] => .ok g
  | d :: ds =>
    match findTask g d with
    | some _ => add_deps (add_dependency g tname d) tname ds
    | none => .error ("KeyError: " ++ d)

/-- The construction loop of `TaskDAG.__init__` over the reversed
topological order: create each task, then connect its dependencies. -/
def build_tasks (ts : RawInput) : List String → Graph → Except String Graph
  | [], g => .ok g
  | n :: rest, g =>
    let body := getBody ts n
    let g1 := g ++ [⟨n, body.data.getD [], [], []⟩]
    match body.deps with
    | none => build_tasks ts rest g1
    | some ds =>
      match add_deps g1 n ds with
      | .ok g2 => build_tasks ts rest g2
      | .error e => .error e

/-- `TaskDAG.__init__` up to (and excluding) the final
`remove_inactive_tasks` call. -/
def build_graph (ts : RawInput) : Except String Graph :=
  match topological_sort ts with
  | .ok order => build_tasks ts order.reverse []
  | .error e => .error e

/-- `task.data.get("status", "") in ("done", "failed")`. -/
def Task.isInactive (t : Task) : Bool :=
  ((alookup t.data "status").getD "" == "done") || ((alookup t.data "status").getD "" == "failed")

/-- The recursive `go_down` of `remove_inactive_tasks`: all transitive
dependencies of a task followed by the task itself.  The fuel only limits
the depth; on the acyclic graphs the program builds, `g.length` is enough
(at fuel 0 the task itself is still returned, which is all the proofs
below rely on for reachable configurations). -/
def go_down (g : Graph) : Nat → Task → List Task
  | 0, t => [t]
  | fuel + 1, t =>
    (t.dependencies.map (fun d =>
      match findTask g d with
      | some td => go_down g fuel td
      | none => [])).flatten ++ [t]

/-- The `inactive_tasks` set of `remove_inactive_tasks`: the union of the
`go_down` closures of every task whose status is "done" or "failed".  The
Python set is modelled as the dedup of the collected names (set iteration
order is unspecified; a set of tasks is a set of names since names are
unique). -/
def inactive_tasks (g : Graph) : List String :=
  ((g.map (fun t => if t.isInactive then (go_down g g.length t).map Task.name else [])).flatten).dedup

/-- `Task.delete`: remove this task from the `dependencies` list of each
of its predications and from the `predications` list of each of its
dependencies (`list.remove` drops the first occurrence each time). -/
def Task.delete (g : Graph) (t : Task) : Graph :=
  let g1 := t.predications.foldl (fun acc p =>
    updateTask acc p (fun u => { u with dependencies := u.dependencies.erase t.name })) g
  t.dependencies.foldl (fun acc d =>
    updateTask acc d (fun u => { u with predications := u.predications.erase t.name })) g1

/-- `TaskDAG.delete_task`: repair the edges, then drop the entry from
`names_to_obj`. -/
def delete_task (g : Graph) (n : String) : Graph :=
  match findTask g n with
  | some t => (Task.delete g t).filter (fun u => u.name ≠ n)
  | none => g

/-- `TaskDAG.remove_inactive_tasks`. -/
def remove_inactive_tasks (g : Graph) : Graph :=
  (inactive_tasks g).foldl delete_task g

/-- The whole of `TaskDAG.__init__`: build, then prune once. -/
def TaskDAG_init (ts : RawInput) : Except String Graph :=
  match build_graph ts with
  | .ok g => .ok (remove_inactive_tasks g)
  | .error e => .error e

/-- `TaskDAG.to_dict`: serialize each task as `{deps, data}`, with both
keys always present. -/
def to_dict (g : Graph) : RawInput :=
  g.map (fun t => (t.name, ⟨some t.dependencies, some t.data⟩))

/-- Does `pat` occur at the head of `s`? -/
def takesAt : List Char → List Char → Bool
  | [], _ => true
  | _ :: _, [] => false
  | p :: ps, c :: cs => p = c && takesAt ps cs

/-- Python `str.replace`: replace every non-overlapping occurrence of
`pat`, scanning left to right. -/
def replaceAux (pat rep : List Char) : Nat → List Char → List Char
  | 0, s => s
  | _ + 1, [] => []
  | fuel + 1, c :: cs =>
    if pat ≠ [] ∧ takesAt pat (c :: cs) then
      rep ++ replaceAux pat rep fuel (List.drop pat.length (c :: cs))
    else c :: replaceAux pat rep fuel cs

def pyReplace (s pat rep : String) : String :=
  ⟨replaceAux pat.toList rep.toList s.toList.length s.toList⟩

/-- The node-id mapping of `translate_to_dot`:
`{task_name: "task_{i}" for i, task_name in enumerate(task_dag.keys())}`. -/
def dotIds (entries : RawInput) : List (String × String) :=
  (entries.map Prod.fst).enum.map (fun p => (p.2, "task_" ++ toString p.1))

def idOf (ids : List (String × String)) (n : String) : String :=
  (alookup ids n).getD ""

/-- The `params` part of a node statement: a pipe-separated list of
`{key | value}` record segments (present iff the `data` key is present),
with `>` escaped. -/
def dotParams (b : RawBody) : String :=
  match b.data with
  | some d =>
    pyReplace
      (" | " ++ String.intercalate " | "
        (d.map (fun p => "\x7b" ++ p.1 ++ " | " ++ p.2 ++ "\x7d"))) ">" "\\>"
  | none => ""

/-- One node statement of the dot output. -/
def dotNodeStmt (ids : List (String × String)) (n : String) (b : RawBody) : String :=
  "\n" ++ idOf ids n ++ " [label=\"" ++ n ++ dotParams b ++ "\" shape=Mrecord]"

/-- The edge statements contributed by one entry: one `dep -> task` edge
per `deps` element. -/
def dotEdgeStmts (ids : List (String × String)) (n : String) (b : RawBody) : String :=
  match b.deps with
  | some ds => ds.foldl (fun acc d => acc ++ "\n" ++ idOf ids d ++ " -> " ++ idOf ids n ++ ";") ""
  | none => ""

/-- The accumulated `dot_code` of the main loop of `translate_to_dot`. -/
def dotCode (ids : List (String × String)) (entries : RawInput) : String :=
  entries.foldl (fun acc p => acc ++ dotNodeStmt ids p.1 p.2 ++ dotEdgeStmts ids p.1 p.2) ""

/-- `TaskDAG.translate_to_dot`, including the surrounding template. -/
def translate_to_dot (g : Graph) : String :=
  let task_dag := to_dict g
  let ids := dotIds task_dag
  "digraph graphname \x7b\nrankdir=LR;\nnode[shape=record];\n" ++ dotCode ids task_dag ++ "\n\x7d"

/-! ## Relations and invariants used by the verification -/

/-- One step of the raw dependency relation: `b` is listed among the
dependencies of `a`. -/
def DepStep (ts : RawInput) (a b : String) : Prop := b ∈ getDeps ts a

/-- The input's dependency relation has no cycle. -/
def AcyclicInput (ts : RawInput) : Prop := ∀ n, ¬ Relation.TransGen (DepStep ts) n n

/-- Invariant of the sort state, satisfied initially and preserved by
every machine step. -/
structure SortInv (ts : RawInput) (s : SortSt) : Prop where
  ordBlack : ∀ n, n ∈ s.order ↔ lookupSt s.state n = some BLACK
  ordNodup : s.order.Nodup
  ordClosed : ∀ n ∈ s.order, ∀ k ∈ getDeps ts n, k ∈ s.order
  ordPair : s.order.Pairwise (fun a b => a ∉ getDeps ts b)
  ordNoSelf : ∀ n ∈ s.order, n ∉ getDeps ts n
  stVals : ∀ n c, lookupSt s.state n = some c → c = GRAY ∨ c = BLACK
  stDom : ∀ n, lookupSt s.state n ≠ none → n ∈ allNames ts
  entNodup : s.enter.Nodup
  entSub : ∀ n ∈ s.enter, n ∈ allNames ts
  entFresh : ∀ n ∈ s.enter, lookupSt s.state n = none

/-- Each stack frame `(n, ks)` has already examined a prefix `done` of
the dependencies of `n`, and each examined dependency is either finished
(`BLACK`) or is one of the frames lying above this one. -/
def FramesOK (ts : RawInput) (s : SortSt) : List (String × List String) → List String → Prop
  | [], _ => True
  | (n, ks) :: rest, above =>
    (∃ done, getDeps ts n = done ++ ks ∧
      ∀ k ∈ done, lookupSt s.state k = some BLACK ∨ k ∈ above) ∧
    FramesOK ts s rest (n :: above)

/-- Invariant tying the machine stack to the state: the `GRAY` names are
exactly the stacked ones, each frame's node is a dependency of the frame
below it, and the examined prefixes are accounted for. -/
structure StackInv (ts : RawInput) (s : SortSt) (stack : List (String × List String)) : Prop where
  grayIff : ∀ n, lookupSt s.state n = some GRAY ↔ n ∈ stack.map Prod.fst
  sNodup : (stack.map Prod.fst).Nodup
  chain : List.Chain' (fun a b => a.1 ∈ getDeps ts b.1) stack
  frames : FramesOK ts s stack []

def frameCost (f : String × List String) : Nat := f.2.length + 1

def stackCost (stack : List (String × List String)) : Nat := (stack.map frameCost).sum

/-- Remaining work for the names that have no colour yet. -/
def freshCost (ts : RawInput) (st : List (String × Nat)) : Nat :=
  (((allNames ts).dedup.filter (fun n => (lookupSt st n).isNone)).map (nameCost ts)).sum

/-! ## Graph invariants -/

/-- Task names are unique (the graph models a dict keyed by name). -/
def NamesNodup (g : Graph) : Prop := (namesOf g).Nodup

/-- Edge symmetry with multiplicity: B occurs in A's dependency list as
often as A occurs in B's predication list. -/
def CountSymm (g : Graph) : Prop :=
  ∀ a ∈ g, ∀ b ∈ g, List.count b.name a.dependencies = List.count a.name b.predications

/-- Every dependency entry names a task of the graph. -/
def DepClosed (g : Graph) : Prop := ∀ t ∈ g, ∀ d ∈ t.dependencies, d ∈ namesOf g

/-- Every predication entry names a task of the graph. -/
def PredClosed (g : Graph) : Prop := ∀ t ∈ g, ∀ p ∈ t.predications, p ∈ namesOf g

/-- Edge symmetry as membership: B is among A's dependencies iff A is
among B's predications. -/
def MemSymm (g : Graph) : Prop :=
  ∀ a ∈ g, ∀ b ∈ g, (b.name ∈ a.dependencies ↔ a.name ∈ b.predications)

/-- The dependency edge `n -> d` (task `n` depends on task `d`). -/
def EdgeMem (g : Graph) (n d : String) : Prop :=
  ∃ t ∈ g, t.name = n ∧ d ∈ t.dependencies

/-- The per-task net effect of `add_deps g n ds`: task `n` gains the
dependency entries `ds`, and every task gains one predication entry `n`
per occurrence of its name in `ds`. -/
def depsAdded (n : String) (ds : List String) (u : Task) : Task :=
  ⟨u.name, u.data,
    (if u.name = n then u.dependencies ++ ds else u.dependencies),
    u.predications ++ List.replicate (List.count u.name ds) n⟩

/-- `k` iterated first-occurrence removals (`list.remove` in a loop). -/
def eraseN (x : String) : List String → Nat → List String
  | l, 0 => l
  | l, k + 1 => eraseN x (l.erase x) k

/-- The net effect of `delete_task` on a graph whose edge counts are
symmetric: the task disappears and every occurrence of its name is
filtered out of the remaining edge lists. -/
def pruneOne (g : Graph) (s : String) : Graph :=
  (g.filter (fun u => u.name ≠ s)).map
    (fun u => ⟨u.name, u.data, u.dependencies.filter (fun d => d ≠ s),
               u.predications.filter (fun p => p ≠ s)⟩)

/-- The net effect of deleting every task in `R`. -/
def pruneAll (g : Graph) (R : List String) : Graph :=
  (g.filter (fun u => decide (u.name ∉ R))).map
    (fun u => ⟨u.name, u.data, u.dependencies.filter (fun d => decide (d ∉ R)),
               u.predications.filter (fun p => decide (p ∉ R))⟩)

/-! ## String occurrence counting, used to state the rendering claims -/

/-- Number of positions of `s` at which `pat` occurs (`pat` nonempty in
all uses, so this counts occurrences, overlapping ones included). -/
def occCount (pat : List Char) : List Char → Nat
  | [] => 0
  | c :: cs => (if takesAt pat (c :: cs) then 1 else 0) + occCount pat cs

def strCount (s pat : String) : Nat := occCount pat.toList s.toList

/-! ## Concrete example inputs and their computed results -/

/-- Input whose single entry names the unknown dependency "b". -/
def exC3 : RawInput := [("a", ⟨some ["b"], none⟩)]

def exC3graph : Graph := [⟨"b", [], [], ["a"]⟩, ⟨"a", [], ["b"], []⟩]

/-- Cyclic input: u and w depend on each other (names chosen so that
neither occurs as a substring of the cycle error message). -/
def exC4 : RawInput := [("u", ⟨some ["w"], none⟩), ("w", ⟨some ["u"], none⟩)]

/-- The build/test example of the rendering claim. -/
def exC8 : RawInput :=
  [("build", ⟨some [], some [("lang", "go")]⟩), ("test", ⟨some ["build"], some []⟩)]

def exC8graph : Graph := [⟨"build", [("lang", "go")], [], ["test"]⟩, ⟨"test", [], ["build"], []⟩]

def exC8dot : String :=
  "digraph graphname \x7b\nrankdir=LR;\nnode[shape=record];\n\ntask_0 [label=\"build | \x7blang | go\x7d\" shape=Mrecord]\ntask_1 [label=\"test | \" shape=Mrecord]\ntask_0 -> task_1;\n\x7d"

/-- The chain A -> B -> C with A done, plus D depending on A. -/
def exC1 : RawInput :=
  [("A", ⟨some ["B"], some [("status", "done")]⟩), ("B", ⟨some ["C"], none⟩),
   ("C", ⟨none, none⟩), ("D", ⟨some ["A"], none⟩)]

def exC1graph : Graph :=
  [⟨"C", [], [], ["B"]⟩, ⟨"B", [], ["C"], ["A"]⟩,
   ⟨"A", [("status", "done")], ["B"], ["D"]⟩, ⟨"D", [], ["A"], []⟩]

/-! ## Basic facts about task deletion -/

theorem mem_updateTask {g : Graph} {n : String} {f : Task → Task} {t : Task}
    (h : t ∈ updateTask g n f) : ∃ u ∈ g, t = if u.name = n then f u else u := by
  simp only [updateTask, List.mem_map] at h
  obtain ⟨u, hu, he⟩ := h
  exact ⟨u, hu, he.symm⟩

theorem mem_foldl_update {f : Task → Task} (hf : ∀ u, (f u).name = u.name ∧ (f u).data = u.data) :
    ∀ (l : List String) (g : Graph) (t : Task),
      t ∈ l.foldl (fun acc p => updateTask acc p f) g →
      ∃ u ∈ g, t.name = u.name ∧ t.data = u.data := by
  intro l
  induction l with
  | nil => intro g t ht; exact ⟨t, ht, rfl, rfl⟩
  | cons p ps ih =>
    intro g t ht
    obtain ⟨u, hu, hn, hd⟩ := ih (updateTask g p f) t ht
    obtain ⟨v, hv, he⟩ := mem_updateTask hu
    refine ⟨v, hv, ?_, ?_⟩
    · by_cases hc : v.name = p <;> simp [hc] at he <;> rw [hn, he] <;> simp [hf]
    · by_cases hc : v.name = p <;> simp [hc] at he <;> rw [hd, he] <;> simp [hf]

theorem mem_task_delete {g : Graph} {t0 t : Task} (h : t ∈ Task.delete g t0) :
    ∃ u ∈ g, t.name = u.name ∧ t.data = u.data := by
  unfold Task.delete at h
  obtain ⟨u, hu, hn, hd⟩ := mem_foldl_update (by intro u; exact ⟨rfl, rfl⟩) _ _ _ h
  obtain ⟨v, hv, hn2, hd2⟩ := mem_foldl_update (by intro u; exact ⟨rfl, rfl⟩) _ _ _ hu
  exact ⟨v, hv, hn.trans hn2, hd.trans hd2⟩

theorem findTask_eq_none {g : Graph} {n : String} (h : findTask g n = none) :
    ∀ t ∈ g, t.name ≠ n := by
  induction g with
  | nil => intro t ht; cases ht
  | cons u g ih =>
    intro t ht
    simp only [findTask] at h
    by_cases hc : u.name = n
    · simp [hc] at h
    · simp only [hc, if_false] at h
      rcases List.mem_cons.mp ht with rfl | ht2
      · exact hc
      · exact ih h t ht2

theorem mem_delete_task {g : Graph} {n : String} {t : Task} (h : t ∈ delete_task g n) :
    (∃ u ∈ g, t.name = u.name ∧ t.data = u.data) ∧ t.name ≠ n := by
  unfold delete_task at h
  cases hfind : findTask g n with
  | none =>
    rw [hfind] at h
    exact ⟨⟨t, h, rfl, rfl⟩, findTask_eq_none hfind t h⟩
  | some t0 =>
    rw [hfind] at h
    have hm := List.mem_filter.mp h
    refine ⟨mem_task_delete hm.1, ?_⟩
    simpa using hm.2

theorem mem_foldl_delete_task :
    ∀ (R : List String) (g : Graph) (t : Task), t ∈ R.foldl delete_task g →
      (∃ u ∈ g, t.name = u.name ∧ t.data = u.data) ∧ t.name ∉ R := by
  intro R
  induction R with
  | nil => intro g t ht; exact ⟨⟨t, ht, rfl, rfl⟩, by simp⟩
  | cons n ns ih =>
    intro g t ht
    obtain ⟨⟨u, hu, hn, hd⟩, hnot⟩ := ih (delete_task g n) t ht
    obtain ⟨⟨v, hv, hn2, hd2⟩, hne⟩ := mem_delete_task hu
    refine ⟨⟨v, hv, hn.trans hn2, hd.trans hd2⟩, ?_⟩
    simp only [List.mem_cons, not_or]
    exact ⟨hn ▸ hne, hnot⟩

theorem isInactive_of_data_eq {t u : Task} (h : t.data = u.data) :
    t.isInactive = u.isInactive := by
  unfold Task.isInactive
  rw [h]

/-- A task is always a member of its own `go_down` closure, whatever the
fuel. -/
theorem self_mem_go_down (g : Graph) (fuel : Nat) (t : Task) : t ∈ go_down g fuel t := by
  cases fuel with
  | zero => simp [go_down]
  | succ m => simp [go_down]

theorem mem_inactive_tasks_of_inactive {g : Graph} {t : Task} (ht : t ∈ g)
    (hi : t.isInactive = true) : t.name ∈ inactive_tasks g := by
  unfold inactive_tasks
  rw [List.mem_dedup]
  apply List.mem_flatten.mpr
  refine ⟨(go_down g g.length t).map Task.name, ?_, ?_⟩
  · apply List.mem_map.mpr
    exact ⟨t, ht, by simp [hi]⟩
  · exact List.mem_map.mpr ⟨t, self_mem_go_down g g.length t, rfl⟩

/-- Every task surviving a prune is active: the prune removes every
inactive task. -/
theorem surviving_task_active {g : Graph} {t : Task}
    (h : t ∈ remove_inactive_tasks g) : t.isInactive = false := by
  unfold remove_inactive_tasks at h
  obtain ⟨⟨u, hu, hn, hd⟩, hnot⟩ := mem_foldl_delete_task _ _ _ h
  by_contra hc
  have hi : u.isInactive = true := by
    rw [← isInactive_of_data_eq hd]
    exact Bool.of_not_eq_false hc
  exact hnot (hn ▸ mem_inactive_tasks_of_inactive hu hi)

theorem inactive_tasks_remove_eq_nil (g : Graph) :
    inactive_tasks (remove_inactive_tasks g) = [] := by
  unfold inactive_tasks
  have hflat : ((remove_inactive_tasks g).map
      (fun t => if t.isInactive then (go_down (remove_inactive_tasks g)
        (remove_inactive_tasks g).length t).map Task.name else [])).flatten = [] := by
    rw [List.flatten_eq_nil_iff]
    intro l hl
    obtain ⟨t, ht, he⟩ := List.mem_map.mp hl
    rw [surviving_task_active ht] at he
    simpa using he.symm
  rw [hflat]
  rfl

/-- Claim C7: pruning is idempotent — running `remove_inactive_tasks` a
second time immediately after a first run removes no further tasks and
leaves the graph (its task set and all dependency/predication edges)
literally unchanged. -/
theorem claim_C7 (g : Graph) :
    remove_inactive_tasks (remove_inactive_tasks g) = remove_inactive_tasks g := by
  conv_lhs => rw [remove_inactive_tasks, inactive_tasks_remove_eq_nil g]
  rfl

/-! ## Topological sort: supporting lemmas -/

theorem alookup_mem {α : Type} {ts : List (String × α)} {n : String} {b : α}
    (h : alookup ts n = some b) : (n, b) ∈ ts := by
  induction ts with
  | nil => cases h
  | cons p rest ih =>
    obtain ⟨k, v⟩ := p
    simp only [alookup] at h
    by_cases hc : k = n
    · rw [if_pos hc] at h
      cases h
      subst hc
      exact List.mem_cons_self _ _
    · rw [if_neg hc] at h
      exact List.mem_cons_of_mem _ (ih h)

theorem alookup_ne_none {α : Type} {ts : List (String × α)} {n : String}
    (h : n ∈ ts.map Prod.fst) : alookup ts n ≠ none := by
  induction ts with
  | nil => cases h
  | cons p rest ih =>
    obtain ⟨k, v⟩ := p
    simp only [alookup]
    by_cases hc : k = n
    · simp [hc]
    · rw [if_neg hc]
      apply ih
      rcases List.mem_cons.mp h with he | hm
      · exact absurd he.symm hc
      · exact hm

theorem keys_sub_allNames {ts : RawInput} {n : String} (h : n ∈ ts.map Prod.fst) :
    n ∈ allNames ts :=
  List.mem_append_left _ h

theorem getDeps_sub_allNames {ts : RawInput} {n k : String} (h : k ∈ getDeps ts n) :
    k ∈ allNames ts := by
  unfold getDeps at h
  cases ha : alookup ts n with
  | none => rw [ha] at h; cases h
  | some b =>
    rw [ha] at h
    apply List.mem_append_right
    apply List.mem_flatten.mpr
    exact ⟨b.deps.getD [], List.mem_map.mpr ⟨(n, b), alookup_mem ha, rfl⟩, h⟩

theorem getDeps_ne_nil_key {ts : RawInput} {n k : String} (h : k ∈ getDeps ts n) :
    n ∈ ts.map Prod.fst := by
  unfold getDeps at h
  cases ha : alookup ts n with
  | none => rw [ha] at h; cases h
  | some b => exact List.mem_map.mpr ⟨(n, b), alookup_mem ha, rfl⟩

theorem lookupSt_cons (k : String) (c : Nat) (l : List (String × Nat)) (n : String) :
    lookupSt ((k, c) :: l) n = if k = n then some c else lookupSt l n := rfl

theorem sum_map_filter_le (l : List String) (p : String → Bool) (f : String → Nat) :
    ((l.filter p).map f).sum ≤ (l.map f).sum := by
  induction l with
  | nil => simp
  | cons a rest ih =>
    by_cases hp : p a
    · simp only [List.filter_cons, hp, if_true, List.map_cons, List.sum_cons]
      omega
    · simp only [List.filter_cons, hp, Bool.false_eq_true, if_false, List.map_cons,
        List.sum_cons]
      omega

theorem sum_map_filter_toggle {l : List String} (hnd : l.Nodup) {k : String} (hk : k ∈ l)
    {p q : String → Bool} (hq : ∀ n ∈ l, q n = ((!(n = k : Bool)) && p n)) (hp : p k = true)
    (f : String → Nat) :
    ((l.filter q).map f).sum + f k = ((l.filter p).map f).sum := by
  induction l with
  | nil => cases hk
  | cons a rest ih =>
    have hnr : rest.Nodup := (List.nodup_cons.mp hnd).2
    rcases List.mem_cons.mp hk with rfl | hk2
    · have hqa : q k = false := by
        rw [hq k (List.mem_cons_self k rest)]
        simp
      have hfa : rest.filter q = rest.filter p := by
        apply List.filter_congr
        intro n hn
        have hne : ¬(n = k) := fun he => (List.nodup_cons.mp hnd).1 (he ▸ hn)
        have hd : (n = k : Bool) = false := by simp [hne]
        rw [hq n (List.mem_cons_of_mem _ hn), hd]
        simp
      rw [List.filter_cons, List.filter_cons, hqa, hp, hfa]
      simp only [Bool.false_eq_true, if_false, if_true, List.map_cons, List.sum_cons]
      omega
    · have hne : ¬(a = k) := fun he => (List.nodup_cons.mp hnd).1 (he ▸ hk2)
      have hd : (a = k : Bool) = false := by simp [hne]
      have hqa : q a = p a := by
        rw [hq a (List.mem_cons_self a rest), hd]
        simp
      have hrec := ih hnr hk2 (fun n hn => hq n (List.mem_cons_of_mem _ hn))
      rw [List.filter_cons, List.filter_cons, hqa]
      cases hpa : p a with
      | true => simp only [if_true, List.map_cons, List.sum_cons]; omega
      | false => simp only [Bool.false_eq_true, if_false]; omega

theorem freshCost_cons_fresh (ts : RawInput) (st : List (String × Nat)) {k : String}
    (c : Nat) (hk : k ∈ allNames ts) (hfresh : lookupSt st k = none) :
    freshCost ts ((k, c) :: st) + nameCost ts k = freshCost ts st := by
  unfold freshCost
  refine sum_map_filter_toggle (List.nodup_dedup _) (List.mem_dedup.mpr hk) ?_ ?_ _
  · intro n _
    show (lookupSt ((k, c) :: st) n).isNone = ((!(n = k : Bool)) && (lookupSt st n).isNone)
    rw [lookupSt_cons]
    by_cases hc : k = n
    · subst hc
      simp
    · have hnk : ¬(n = k) := fun he => hc he.symm
      rw [if_neg hc]
      simp [hnk]
  · simp [hfresh]

theorem freshCost_cons_stale (ts : RawInput) (st : List (String × Nat)) {k : String}
    (c : Nat) (hstale : lookupSt st k ≠ none) :
    freshCost ts ((k, c) :: st) = freshCost ts st := by
  unfold freshCost
  congr 1
  apply congrArg
  apply List.filter_congr
  intro n _
  rw [lookupSt_cons]
  by_cases hc : k = n
  · subst hc
    cases hl : lookupSt st k with
    | none => exact absurd hl hstale
    | some c2 => simp
  · rw [if_neg hc]

theorem freshCost_le_total (ts : RawInput) (st : List (String × Nat)) :
    freshCost ts st ≤ (((allNames ts).dedup).map (nameCost ts)).sum :=
  sum_map_filter_le _ _ _

theorem chain_reach {ts : RawInput} :
    ∀ (stack : List (String × List String)) (t : String × List String),
      List.Chain' (fun a b => a.1 ∈ getDeps ts b.1) (t :: stack) →
      ∀ f ∈ t :: stack, Relation.ReflTransGen (DepStep ts) f.1 t.1 := by
  intro stack
  induction stack with
  | nil =>
    intro t _ f hf
    rcases List.mem_singleton.mp hf with rfl
    exact Relation.ReflTransGen.refl
  | cons u rest ih =>
    intro t hch f hf
    have hpair := List.chain'_cons.mp hch
    rcases List.mem_cons.mp hf with rfl | hf2
    · exact Relation.ReflTransGen.refl
    · have hru : Relation.ReflTransGen (DepStep ts) f.1 u.1 := ih u hpair.2 f hf2
      exact hru.tail hpair.1

theorem framesOK_mono {ts : RawInput} {s s2 : SortSt} :
    ∀ {stack : List (String × List String)} {above above2 : List String},
      (∀ k, lookupSt s.state k = some BLACK → lookupSt s2.state k = some BLACK) →
      (∀ k ∈ above, lookupSt s2.state k = some BLACK ∨ k ∈ above2) →
      FramesOK ts s stack above → FramesOK ts s2 stack above2 := by
  intro stack
  induction stack with
  | nil => intro above above2 _ _ _; trivial
  | cons f rest ih =>
    obtain ⟨n, ks⟩ := f
    intro above above2 hb ha h
    obtain ⟨⟨done, hdone, hdk⟩, hrest⟩ := h
    refine ⟨⟨done, hdone, ?_⟩, ih hb ?_ hrest⟩
    · intro k hk
      rcases hdk k hk with hB | hA
      · exact Or.inl (hb k hB)
      · exact ha k hA
    · intro k hk
      rcases List.mem_cons.mp hk with rfl | hk2
      · exact Or.inr (List.mem_cons_self _ _)
      · rcases ha k hk2 with hB | hA
        · exact Or.inl hB
        · exact Or.inr (List.mem_cons_of_mem _ hA)

theorem dfsRun_nil (ts : RawInput) (fuel : Nat) (s : SortSt) :
    dfsRun ts (fuel + 1) s [] = Except.ok s := rfl

theorem dfsRun_finish (ts : RawInput) (fuel : Nat) (s : SortSt) (node : String)
    (rest : List (String × List String)) :
    dfsRun ts (fuel + 1) s ((node, []) :: rest) =
      dfsRun ts fuel ⟨node :: s.order, s.enter, (node, BLACK) :: s.state⟩ rest := rfl

theorem dfsRun_visit (ts : RawInput) (fuel : Nat) (s : SortSt) (node k : String)
    (ks : List String) (rest : List (String × List String)) :
    dfsRun ts (fuel + 1) s ((node, k :: ks) :: rest) =
      (match lookupSt s.state k with
       | some c =>
         if c = GRAY then Except.error "Error. Graph contains cycle. Not a DAG."
         else if c = BLACK then dfsRun ts fuel s ((node, ks) :: rest)
         else dfsRun ts fuel ⟨s.order, s.enter.erase k, (k, GRAY) :: s.state⟩
                ((k, getDeps ts k) :: (node, ks) :: rest)
       | none => dfsRun ts fuel ⟨s.order, s.enter.erase k, (k, GRAY) :: s.state⟩
                ((k, getDeps ts k) :: (node, ks) :: rest)) := rfl

theorem dfsRun_visit_found (ts : RawInput) (fuel : Nat) (s : SortSt) (node k : String)
    (ks : List String) (rest : List (String × List String)) (c : Nat)
    (h : lookupSt s.state k = some c) :
    dfsRun ts (fuel + 1) s ((node, k :: ks) :: rest) =
      (if c = GRAY then Except.error "Error. Graph contains cycle. Not a DAG."
       else if c = BLACK then dfsRun ts fuel s ((node, ks) :: rest)
       else dfsRun ts fuel ⟨s.order, s.enter.erase k, (k, GRAY) :: s.state⟩
              ((k, getDeps ts k) :: (node, ks) :: rest)) := by
  rw [dfsRun_visit, h]

theorem dfsRun_visit_fresh (ts : RawInput) (fuel : Nat) (s : SortSt) (node k : String)
    (ks : List String) (rest : List (String × List String))
    (h : lookupSt s.state k = none) :
    dfsRun ts (fuel + 1) s ((node, k :: ks) :: rest) =
      dfsRun ts fuel ⟨s.order, s.enter.erase k, (k, GRAY) :: s.state⟩
        ((k, getDeps ts k) :: (node, ks) :: rest) := by
  rw [dfsRun_visit, h]

theorem chain_drop_dep {ts : RawInput} {node : String} {ks1 ks2 : List String}
    {rest : List (String × List String)}
    (h : List.Chain' (fun a b => a.1 ∈ getDeps ts b.1) ((node, ks1) :: rest)) :
    List.Chain' (fun a b => a.1 ∈ getDeps ts b.1) ((node, ks2) :: rest) := by
  cases rest with
  | nil => simp
  | cons r rr =>
    have hp := List.chain'_cons.mp h
    exact List.chain'_cons.mpr ⟨hp.1, hp.2⟩

/-- The central lemma: a run of the `dfs` stack machine, started in any
configuration satisfying the invariants with enough fuel, either raises
the cycle error — and then the input really has a dependency cycle — or
returns a state that again satisfies the invariants, has no `GRAY` names
left, only shrank `enter`, only grew the colour map, and kept every name
accounted for (in `enter` or coloured). -/
theorem dfsRun_spec (ts : RawInput) :
    ∀ (fuel : Nat) (s : SortSt) (stack : List (String × List String)),
      SortInv ts s → StackInv ts s stack →
      stackCost stack + freshCost ts s.state < fuel →
      (∃ m, dfsRun ts fuel s stack = .error "Error. Graph contains cycle. Not a DAG." ∧
            Relation.TransGen (DepStep ts) m m) ∨
      (∃ s2, dfsRun ts fuel s stack = .ok s2 ∧ SortInv ts s2 ∧
        (∀ n, lookupSt s2.state n ≠ some GRAY) ∧
        List.Sublist s2.enter s.enter ∧
        (∀ n, lookupSt s.state n ≠ none → lookupSt s2.state n ≠ none) ∧
        (∀ n, (n ∈ s.enter ∨ lookupSt s.state n ≠ none) →
              (n ∈ s2.enter ∨ lookupSt s2.state n ≠ none))) := by
  intro fuel
  induction fuel with
  | zero => intro s stack _ _ hfuel; omega
  | succ fuel ih =>
    intro s stack hinv hstk hfuel
    rcases stack with _ | ⟨⟨node, ks⟩, rest⟩
    · -- empty stack: the run is over
      right
      refine ⟨s, dfsRun_nil ts fuel s, hinv, ?_, List.Sublist.refl _, fun n h => h,
        fun n h => h⟩
      intro n hg
      have := (hstk.grayIff n).mp hg
      simp at this
    rcases ks with _ | ⟨k, ks⟩
    · -- finish step: paint `node` BLACK and prepend it to the order
      have hgnode : lookupSt s.state node = some GRAY :=
        (hstk.grayIff node).mpr (by simp)
      obtain ⟨⟨done, hdone, hdk⟩, hrest⟩ := hstk.frames
      rw [List.append_nil] at hdone
      have hdepsBlack : ∀ j ∈ getDeps ts node, lookupSt s.state j = some BLACK := by
        intro j hj
        rcases hdk j (hdone ▸ hj) with hB | hA
        · exact hB
        · cases hA
      have hnodeNotOrd : node ∉ s.order := by
        intro hmem
        have hb := (hinv.ordBlack node).mp hmem
        rw [hgnode] at hb
        simp [GRAY, BLACK] at hb
      have hinv1 : SortInv ts ⟨node :: s.order, s.enter, (node, BLACK) :: s.state⟩ := by
        refine ⟨?_, ?_, ?_, ?_, ?_, ?_, ?_, ?_, ?_, ?_⟩
        · intro n
          show n ∈ node :: s.order ↔ lookupSt ((node, BLACK) :: s.state) n = some BLACK
          rw [lookupSt_cons]
          by_cases hc : node = n
          · subst hc
            simp
          · rw [if_neg hc, List.mem_cons]
            constructor
            · intro h
              rcases h with he | hm
              · exact absurd he.symm hc
              · exact (hinv.ordBlack n).mp hm
            · intro h
              exact Or.inr ((hinv.ordBlack n).mpr h)
        · exact List.nodup_cons.mpr ⟨hnodeNotOrd, hinv.ordNodup⟩
        · intro n hn j hj
          rcases List.mem_cons.mp hn with rfl | hm
          · exact List.mem_cons_of_mem _ ((hinv.ordBlack j).mpr (hdepsBlack j hj))
          · exact List.mem_cons_of_mem _ (hinv.ordClosed n hm j hj)
        · refine List.pairwise_cons.mpr ⟨?_, hinv.ordPair⟩
          intro b hb hmem
          exact hnodeNotOrd (hinv.ordClosed b hb node hmem)
        · intro n hn
          rcases List.mem_cons.mp hn with rfl | hm
          · intro hmem
            have hbl := hdepsBlack n hmem
            rw [hgnode] at hbl
            simp [GRAY, BLACK] at hbl
          · exact hinv.ordNoSelf n hm
        · intro n c h
          have h2 : lookupSt ((node, BLACK) :: s.state) n = some c := h
          rw [lookupSt_cons] at h2
          by_cases hc : node = n
          · rw [if_pos hc] at h2
            cases h2
            exact Or.inr rfl
          · rw [if_neg hc] at h2
            exact hinv.stVals n c h2
        · intro n h
          have h2 : lookupSt ((node, BLACK) :: s.state) n ≠ none := h
          rw [lookupSt_cons] at h2
          by_cases hc : node = n
          · subst hc
            exact hinv.stDom node (by rw [hgnode]; simp)
          · rw [if_neg hc] at h2
            exact hinv.stDom n h2
        · exact hinv.entNodup
        · exact hinv.entSub
        · intro n hn
          have hf := hinv.entFresh n hn
          show lookupSt ((node, BLACK) :: s.state) n = none
          rw [lookupSt_cons]
          by_cases hc : node = n
          · subst hc
            rw [hgnode] at hf
            cases hf
          · rw [if_neg hc]
            exact hf
      have hstk1 : StackInv ts ⟨node :: s.order, s.enter, (node, BLACK) :: s.state⟩ rest := by
        refine ⟨?_, ?_, ?_, ?_⟩
        · intro n
          show lookupSt ((node, BLACK) :: s.state) n = some GRAY ↔ _
          rw [lookupSt_cons]
          by_cases hc : node = n
          · subst hc
            rw [if_pos rfl]
            constructor
            · intro h
              simp [GRAY, BLACK] at h
            · intro h
              exact absurd h (List.nodup_cons.mp hstk.sNodup).1
          · rw [if_neg hc, hstk.grayIff n]
            simp only [List.map_cons, List.mem_cons]
            constructor
            · intro h
              rcases h with he | hm
              · exact absurd he.symm hc
              · exact hm
            · intro h
              exact Or.inr h
        · exact (List.nodup_cons.mp hstk.sNodup).2
        · exact hstk.chain.tail
        · refine framesOK_mono ?_ ?_ hrest
          · intro j hB
            show lookupSt ((node, BLACK) :: s.state) j = some BLACK
            rw [lookupSt_cons]
            by_cases hc : node = j
            · rw [if_pos hc]
            · rw [if_neg hc]
              exact hB
          · intro j hj
            have hjn : j = node := List.mem_singleton.mp hj
            subst hjn
            left
            show lookupSt ((j, BLACK) :: s.state) j = some BLACK
            rw [lookupSt_cons, if_pos rfl]
      have hfuel1 : stackCost rest +
          freshCost ts (SortSt.mk (node :: s.order) s.enter ((node, BLACK) :: s.state)).state
            < fuel := by
        have hfc : freshCost ts ((node, BLACK) :: s.state) = freshCost ts s.state := by
          apply freshCost_cons_stale
          rw [hgnode]
          simp
        show stackCost rest + freshCost ts ((node, BLACK) :: s.state) < fuel
        rw [hfc]
        have hsc : stackCost ((node, ([] : List String)) :: rest) = 1 + stackCost rest := by
          simp [stackCost, frameCost]
        rw [hsc] at hfuel
        omega
      rw [dfsRun_finish]
      rcases ih ⟨node :: s.order, s.enter, (node, BLACK) :: s.state⟩ rest hinv1 hstk1 hfuel1
        with ⟨m, herr, hcyc⟩ | ⟨s2, hok, hinv2, hg2, hsub2, hdom2, hcov2⟩
      · exact Or.inl ⟨m, herr, hcyc⟩
      · right
        refine ⟨s2, hok, hinv2, hg2, hsub2, ?_, ?_⟩
        · intro n h
          apply hdom2
          show lookupSt ((node, BLACK) :: s.state) n ≠ none
          rw [lookupSt_cons]
          by_cases hc : node = n
          · simp [hc]
          · rw [if_neg hc]
            exact h
        · intro n h
          apply hcov2
          rcases h with hent | hdom
          · exact Or.inl hent
          · right
            show lookupSt ((node, BLACK) :: s.state) n ≠ none
            rw [lookupSt_cons]
            by_cases hc : node = n
            · simp [hc]
            · rw [if_neg hc]
              exact hdom
    · -- visit step: examine the next dependency k of node
      obtain ⟨⟨done, hdone, hdk⟩, hrest⟩ := hstk.frames
      have hkdep : k ∈ getDeps ts node := by
        rw [hdone]
        exact List.mem_append_right _ (List.mem_cons_self _ _)
      cases hlk : lookupSt s.state k with
      | some c =>
        rcases hinv.stVals k c hlk with rfl | rfl
        · -- GRAY: the cycle error, and a genuine cycle exists
          rw [dfsRun_visit_found ts fuel s node k ks rest GRAY hlk, if_pos rfl]
          left
          refine ⟨k, rfl, ?_⟩
          have hkstack : k ∈ ((node, k :: ks) :: rest).map Prod.fst :=
            (hstk.grayIff k).mp hlk
          obtain ⟨f, hf, hfk⟩ := List.mem_map.mp hkstack
          have hreach : Relation.ReflTransGen (DepStep ts) f.1 node :=
            chain_reach rest (node, k :: ks) hstk.chain f hf
          rw [hfk] at hreach
          exact Relation.TransGen.tail' hreach hkdep
        · -- BLACK: skip this dependency
          have hgb : ¬(BLACK = GRAY) := by simp [GRAY, BLACK]
          rw [dfsRun_visit_found ts fuel s node k ks rest BLACK hlk, if_neg hgb, if_pos rfl]
          have hstk2 : StackInv ts s ((node, ks) :: rest) := by
            refine ⟨?_, ?_, chain_drop_dep hstk.chain, ?_, ?_⟩
            · intro n
              rw [hstk.grayIff n]
              simp
            · simpa using hstk.sNodup
            · refine ⟨done ++ [k], by rw [hdone]; simp, ?_⟩
              intro j hj
              rcases List.mem_append.mp hj with hjd | hjk
              · exact hdk j hjd
              · have hjk2 : j = k := List.mem_singleton.mp hjk
                subst hjk2
                exact Or.inl hlk
            · exact hrest
          have hfuel2 : stackCost ((node, ks) :: rest) + freshCost ts s.state < fuel := by
            simp only [stackCost, frameCost, List.map_cons, List.sum_cons, List.length_cons]
              at hfuel ⊢
            omega
          rcases ih s ((node, ks) :: rest) hinv hstk2 hfuel2 with herr | hok
          · exact Or.inl herr
          · exact Or.inr hok
      | none =>
        -- fresh: discard k from enter, paint it GRAY, push its frame
        rw [dfsRun_visit_fresh ts fuel s node k ks rest hlk]
        have hkan : k ∈ allNames ts := getDeps_sub_allNames hkdep
        have hkgrayless : k ∉ ((node, k :: ks) :: rest).map Prod.fst := by
          intro hmem
          have hg := (hstk.grayIff k).mpr hmem
          rw [hlk] at hg
          cases hg
        have hinv1 : SortInv ts ⟨s.order, s.enter.erase k, (k, GRAY) :: s.state⟩ := by
          refine ⟨?_, hinv.ordNodup, hinv.ordClosed, hinv.ordPair, hinv.ordNoSelf,
            ?_, ?_, ?_, ?_, ?_⟩
          · intro n
            show n ∈ s.order ↔ lookupSt ((k, GRAY) :: s.state) n = some BLACK
            rw [lookupSt_cons]
            by_cases hc : k = n
            · subst hc
              rw [if_pos rfl]
              constructor
              · intro h
                have hb := (hinv.ordBlack k).mp h
                rw [hlk] at hb
                cases hb
              · intro h
                simp [GRAY, BLACK] at h
            · rw [if_neg hc]
              exact hinv.ordBlack n
          · intro n c h
            have h2 : lookupSt ((k, GRAY) :: s.state) n = some c := h
            rw [lookupSt_cons] at h2
            by_cases hc : k = n
            · rw [if_pos hc] at h2
              cases h2
              exact Or.inl rfl
            · rw [if_neg hc] at h2
              exact hinv.stVals n c h2
          · intro n h
            have h2 : lookupSt ((k, GRAY) :: s.state) n ≠ none := h
            rw [lookupSt_cons] at h2
            by_cases hc : k = n
            · subst hc
              exact hkan
            · rw [if_neg hc] at h2
              exact hinv.stDom n h2
          · exact hinv.entNodup.erase k
          · intro n hn
            exact hinv.entSub n (List.mem_of_mem_erase hn)
          · intro n hn
            have hnk : n ≠ k := ((hinv.entNodup.mem_erase_iff).mp hn).1
            have hf := hinv.entFresh n (List.mem_of_mem_erase hn)
            show lookupSt ((k, GRAY) :: s.state) n = none
            rw [lookupSt_cons, if_neg (fun he => hnk he.symm)]
            exact hf
        have hstk1 : StackInv ts ⟨s.order, s.enter.erase k, (k, GRAY) :: s.state⟩
            ((k, getDeps ts k) :: (node, ks) :: rest) := by
          refine ⟨?_, ?_, ?_, ?_, ?_, ?_⟩
          · intro n
            show lookupSt ((k, GRAY) :: s.state) n = some GRAY ↔ _
            rw [lookupSt_cons]
            by_cases hc : k = n
            · subst hc
              rw [if_pos rfl]
              simp
            · rw [if_neg hc, hstk.grayIff n]
              simp only [List.map_cons, List.mem_cons]
              constructor
              · intro h
                exact Or.inr h
              · intro h
                rcases h with he | hm
                · exact absurd he.symm hc
                · exact hm
          · simp only [List.map_cons]
            refine List.nodup_cons.mpr ⟨?_, ?_⟩
            · intro hmem
              exact hkgrayless (by simpa using hmem)
            · simpa using hstk.sNodup
          · exact List.chain'_cons.mpr ⟨hkdep, chain_drop_dep hstk.chain⟩
          · exact ⟨[], by simp, by simp⟩
          · refine ⟨done ++ [k], by rw [hdone]; simp, ?_⟩
            intro j hj
            rcases List.mem_append.mp hj with hjd | hjk
            · rcases hdk j hjd with hB | hA
              · left
                show lookupSt ((k, GRAY) :: s.state) j = some BLACK
                rw [lookupSt_cons]
                by_cases hc : k = j
                · subst hc
                  rw [hlk] at hB
                  cases hB
                · rw [if_neg hc]
                  exact hB
              · cases hA
            · have hjk2 : j = k := List.mem_singleton.mp hjk
              subst hjk2
              right
              exact List.mem_singleton.mpr rfl
          · refine framesOK_mono ?_ ?_ hrest
            · intro j hB
              show lookupSt ((k, GRAY) :: s.state) j = some BLACK
              rw [lookupSt_cons]
              by_cases hc : k = j
              · subst hc
                rw [hlk] at hB
                cases hB
              · rw [if_neg hc]
                exact hB
            · intro j hj
              have hjn : j = node := List.mem_singleton.mp hj
              subst hjn
              right
              simp
        have hfuel1 : stackCost ((k, getDeps ts k) :: (node, ks) :: rest) +
            freshCost ts (SortSt.mk s.order (s.enter.erase k) ((k, GRAY) :: s.state)).state
              < fuel := by
          have hfc : freshCost ts ((k, GRAY) :: s.state) + nameCost ts k =
              freshCost ts s.state := freshCost_cons_fresh ts s.state GRAY hkan hlk
          have hnc : nameCost ts k = (getDeps ts k).length + 1 := rfl
          show stackCost ((k, getDeps ts k) :: (node, ks) :: rest) +
            freshCost ts ((k, GRAY) :: s.state) < fuel
          simp only [stackCost, frameCost, List.map_cons, List.sum_cons, List.length_cons]
            at hfuel ⊢
          omega
        rcases ih ⟨s.order, s.enter.erase k, (k, GRAY) :: s.state⟩
            ((k, getDeps ts k) :: (node, ks) :: rest) hinv1 hstk1 hfuel1 with
          herr | ⟨s2, hok, hinv2, hg2, hsub2, hdom2, hcov2⟩
        · exact Or.inl herr
        · right
          refine ⟨s2, hok, hinv2, hg2, ?_, ?_, ?_⟩
          · exact hsub2.trans (List.erase_sublist k s.enter)
          · intro n h
            apply hdom2
            show lookupSt ((k, GRAY) :: s.state) n ≠ none
            rw [lookupSt_cons]
            by_cases hc : k = n
            · simp [hc]
            · rw [if_neg hc]
              exact h
          · intro n h
            apply hcov2
            by_cases hnk : n = k
            · subst hnk
              right
              show lookupSt ((n, GRAY) :: s.state) n ≠ none
              rw [lookupSt_cons, if_pos rfl]
              simp
            · rcases h with hent | hdom
              · left
                exact (List.mem_erase_of_ne hnk).mpr hent
              · right
                show lookupSt ((k, GRAY) :: s.state) n ≠ none
                rw [lookupSt_cons, if_neg (fun he => hnk he.symm)]
                exact hdom

theorem sortLoop_zero (ts : RawInput) (s : SortSt) :
    sortLoop ts 0 s = if s.enter.isEmpty then Except.ok s else Except.error "loop limit" := rfl

theorem sortLoop_succ (ts : RawInput) (fuel : Nat) (s : SortSt) :
    sortLoop ts (fuel + 1) s =
      (match s.enter with
       | [] => Except.ok s
       | node :: rest =>
         match dfsRun ts (sortCost ts) ⟨s.order, rest, (node, GRAY) :: s.state⟩
                 [(node, getDeps ts node)] with
         | .ok st2 => sortLoop ts fuel st2
         | .error e => .error e) := rfl

theorem sortLoop_step (ts : RawInput) (fuel : Nat) (s : SortSt) (node : String)
    (rest : List String) (h : s.enter = node :: rest) :
    sortLoop ts (fuel + 1) s =
      (match dfsRun ts (sortCost ts) ⟨s.order, rest, (node, GRAY) :: s.state⟩
              [(node, getDeps ts node)] with
       | .ok st2 => sortLoop ts fuel st2
       | .error e => .error e) := by
  rw [sortLoop_succ, h]

/-- The `while enter` loop preserves the invariant; between iterations not
a single name is `GRAY`.  It either propagates the cycle error (with a
real cycle in the input) or empties `enter`, having coloured every name
that was in `enter` or already coloured. -/
theorem sortLoop_spec (ts : RawInput) :
    ∀ (fuel : Nat) (s : SortSt),
      SortInv ts s → (∀ n, lookupSt s.state n ≠ some GRAY) →
      s.enter.length ≤ fuel →
      (∃ m, sortLoop ts fuel s = .error "Error. Graph contains cycle. Not a DAG." ∧
            Relation.TransGen (DepStep ts) m m) ∨
      (∃ s2, sortLoop ts fuel s = .ok s2 ∧ SortInv ts s2 ∧ s2.enter = [] ∧
        (∀ n, lookupSt s2.state n ≠ some GRAY) ∧
        (∀ n, (n ∈ s.enter ∨ lookupSt s.state n ≠ none) → lookupSt s2.state n ≠ none)) := by
  intro fuel
  induction fuel with
  | zero =>
    intro s hinv hng hlen
    have he : s.enter = [] := List.length_eq_zero.mp (Nat.le_zero.mp hlen)
    right
    refine ⟨s, ?_, hinv, he, hng, ?_⟩
    · rw [sortLoop_zero, he]
      rfl
    · intro n h
      rcases h with hent | hdom
      · rw [he] at hent
        cases hent
      · exact hdom
  | succ fuel ih =>
    intro s hinv hng hlen
    cases hent : s.enter with
    | nil =>
      right
      refine ⟨s, ?_, hinv, hent, hng, ?_⟩
      · rw [sortLoop_succ, hent]
      · intro n h
        rcases h with h1 | h2
        · cases h1
        · exact h2
    | cons node rest =>
      have hnodeEnt : node ∈ s.enter := by
        rw [hent]
        exact List.mem_cons_self _ _
      have hfresh : lookupSt s.state node = none := hinv.entFresh node hnodeEnt
      have hnodeAll : node ∈ allNames ts := hinv.entSub node hnodeEnt
      have hentNodup : (node :: rest).Nodup := hent ▸ hinv.entNodup
      have hinv1 : SortInv ts ⟨s.order, rest, (node, GRAY) :: s.state⟩ := by
        refine ⟨?_, hinv.ordNodup, hinv.ordClosed, hinv.ordPair, hinv.ordNoSelf,
          ?_, ?_, ?_, ?_, ?_⟩
        · intro n
          show n ∈ s.order ↔ lookupSt ((node, GRAY) :: s.state) n = some BLACK
          rw [lookupSt_cons]
          by_cases hc : node = n
          · subst hc
            rw [if_pos rfl]
            constructor
            · intro h
              have hb := (hinv.ordBlack node).mp h
              rw [hfresh] at hb
              cases hb
            · intro h
              simp [GRAY, BLACK] at h
          · rw [if_neg hc]
            exact hinv.ordBlack n
        · intro n c h
          have h2 : lookupSt ((node, GRAY) :: s.state) n = some c := h
          rw [lookupSt_cons] at h2
          by_cases hc : node = n
          · rw [if_pos hc] at h2
            cases h2
            exact Or.inl rfl
          · rw [if_neg hc] at h2
            exact hinv.stVals n c h2
        · intro n h
          have h2 : lookupSt ((node, GRAY) :: s.state) n ≠ none := h
          rw [lookupSt_cons] at h2
          by_cases hc : node = n
          · subst hc
            exact hnodeAll
          · rw [if_neg hc] at h2
            exact hinv.stDom n h2
        · exact (List.nodup_cons.mp hentNodup).2
        · intro n hn
          exact hinv.entSub n (by rw [hent]; exact List.mem_cons_of_mem _ hn)
        · intro n hn
          have hnn : n ≠ node := fun he => (List.nodup_cons.mp hentNodup).1 (he ▸ hn)
          have hf := hinv.entFresh n (by rw [hent]; exact List.mem_cons_of_mem _ hn)
          show lookupSt ((node, GRAY) :: s.state) n = none
          rw [lookupSt_cons, if_neg (fun he => hnn he.symm)]
          exact hf
      have hstk1 : StackInv ts ⟨s.order, rest, (node, GRAY) :: s.state⟩
          [(node, getDeps ts node)] := by
        refine ⟨?_, by simp, List.chain'_singleton _, ⟨[], by simp, by simp⟩, trivial⟩
        intro n
        show lookupSt ((node, GRAY) :: s.state) n = some GRAY ↔ _
        rw [lookupSt_cons]
        by_cases hc : node = n
        · subst hc
          rw [if_pos rfl]
          simp
        · rw [if_neg hc]
          simp only [List.map_cons, List.map_nil, List.mem_singleton]
          constructor
          · intro h
            exact absurd h (hng n)
          · intro h
            exact absurd h.symm hc
      have hfuel1 : stackCost [(node, getDeps ts node)] +
          freshCost ts (SortSt.mk s.order rest ((node, GRAY) :: s.state)).state
            < sortCost ts := by
        show stackCost [(node, getDeps ts node)] +
          freshCost ts ((node, GRAY) :: s.state) < sortCost ts
        have hfc : freshCost ts ((node, GRAY) :: s.state) + nameCost ts node =
            freshCost ts s.state := freshCost_cons_fresh ts s.state GRAY hnodeAll hfresh
        have hle := freshCost_le_total ts s.state
        have hsc : stackCost [(node, getDeps ts node)] = nameCost ts node := by
          simp [stackCost, frameCost, nameCost]
        rw [hsc]
        unfold sortCost
        omega
      rcases dfsRun_spec ts (sortCost ts) ⟨s.order, rest, (node, GRAY) :: s.state⟩
          [(node, getDeps ts node)] hinv1 hstk1 hfuel1 with
        ⟨m, herr, hcyc⟩ | ⟨s2, hok, hinv2, hg2, hsub2, hdom2, hcov2⟩
      · left
        refine ⟨m, ?_, hcyc⟩
        rw [sortLoop_step ts fuel s node rest hent, herr]
      · have hstep : sortLoop ts (fuel + 1) s = sortLoop ts fuel s2 := by
          rw [sortLoop_step ts fuel s node rest hent, hok]
        have hlen2 : s2.enter.length ≤ fuel := by
          have h1 : s2.enter.length ≤ rest.length := hsub2.length_le
          have h2 : s.enter.length = rest.length + 1 := by
            rw [hent]
            rfl
          omega
        rcases ih s2 hinv2 hg2 hlen2 with ⟨m, herr3, hcyc3⟩ | ⟨s3, hok3, hinv3, hent3, hg3, hcov3⟩
        · left
          exact ⟨m, by rw [hstep, herr3], hcyc3⟩
        · right
          refine ⟨s3, by rw [hstep, hok3], hinv3, hent3, hg3, ?_⟩
          intro n h
          apply hcov3
          have hdomGray : lookupSt ((node, GRAY) :: s.state) node ≠ none := by
            rw [lookupSt_cons, if_pos rfl]
            simp

          rcases h with h1 | h2
          · rcases List.mem_cons.mp h1 with rfl | hmem
            · exact hcov2 n (Or.inr hdomGray)
            · exact hcov2 n (Or.inl hmem)
          · refine hcov2 n (Or.inr ?_)
            show lookupSt ((node, GRAY) :: s.state) n ≠ none
            rw [lookupSt_cons]
            by_cases hc : node = n
            · simp [hc]
            · rw [if_neg hc]
              exact h2

theorem sortInv_init (ts : RawInput) : SortInv ts ⟨[], (ts.map Prod.fst).dedup, []⟩ := by
  refine ⟨?_, List.nodup_nil, ?_, List.Pairwise.nil, ?_, ?_, ?_, List.nodup_dedup _, ?_, ?_⟩
  · intro n
    show n ∈ [] ↔ lookupSt [] n = some BLACK
    simp [lookupSt]
  · intro n hn
    cases hn
  · intro n hn
    cases hn
  · intro n c h
    cases h
  · intro n h
    exact absurd rfl h
  · intro n hn
    exact keys_sub_allNames (List.mem_dedup.mp hn)
  · intro n _
    rfl

/-- The summary result for `topological_sort`: on every input it either
reports the fixed cycle message (and the input genuinely has a dependency
cycle), or it succeeds with a final state whose order covers every key. -/
theorem topological_sort_spec (ts : RawInput) :
    (∃ m, topological_sort ts = .error "Error. Graph contains cycle. Not a DAG." ∧
          Relation.TransGen (DepStep ts) m m) ∨
    (∃ s2, topological_sort ts = .ok s2.order ∧ SortInv ts s2 ∧
      (∀ n, lookupSt s2.state n ≠ some GRAY) ∧
      (∀ n ∈ ts.map Prod.fst, lookupSt s2.state n ≠ none)) := by
  have hng0 : ∀ n, lookupSt ([] : List (String × Nat)) n ≠ some GRAY := by
    intro n h
    cases h
  rcases sortLoop_spec ts ((ts.map Prod.fst).dedup).length ⟨[], (ts.map Prod.fst).dedup, []⟩
      (sortInv_init ts) hng0 (Nat.le_refl _) with
    ⟨m, herr, hcyc⟩ | ⟨s2, hok, hinv2, hent2, hg2, hcov2⟩
  · left
    refine ⟨m, ?_, hcyc⟩
    unfold topological_sort
    rw [herr]
  · right
    refine ⟨s2, ?_, hinv2, hg2, ?_⟩
    · unfold topological_sort
      rw [hok]
    · intro n hn
      exact hcov2 n (Or.inl (List.mem_dedup.mpr hn))

/-- The properties of a successful sort output. -/
theorem topological_sort_props {ts : RawInput} {order : List String}
    (h : topological_sort ts = .ok order) :
    order.Nodup ∧
    (∀ n ∈ ts.map Prod.fst, n ∈ order) ∧
    (∀ n ∈ order, ∀ k ∈ getDeps ts n, k ∈ order) ∧
    order.Pairwise (fun a b => a ∉ getDeps ts b) ∧
    (∀ n ∈ order, n ∉ getDeps ts n) ∧
    (∀ n ∈ order, n ∈ allNames ts) := by
  rcases topological_sort_spec ts with ⟨m, herr, _⟩ | ⟨s2, hok, hinv2, hg2, hcovK⟩
  · rw [herr] at h
    exact Except.noConfusion h
  · rw [hok] at h
    have horder : s2.order = order := Except.ok.inj h
    subst horder
    have hblack : ∀ n, lookupSt s2.state n ≠ none → n ∈ s2.order := by
      intro n hn
      cases hl : lookupSt s2.state n with
      | none => exact absurd hl hn
      | some c =>
        rcases hinv2.stVals n c hl with rfl | rfl
        · exact absurd hl (hg2 n)
        · exact (hinv2.ordBlack n).mpr hl
    refine ⟨hinv2.ordNodup, ?_, hinv2.ordClosed, hinv2.ordPair, hinv2.ordNoSelf, ?_⟩
    · intro n hn
      exact hblack n (hcovK n hn)
    · intro n hn
      apply hinv2.stDom
      rw [(hinv2.ordBlack n).mp hn]
      simp

theorem pairwise_indexOf_lt {l : List String} (hnd : l.Nodup) {S : String → String → Prop}
    (hp : l.Pairwise S) {a b : String} (ha : a ∈ l) (hb : b ∈ l) (hne : b ≠ a)
    (hnS : ¬ S a b) : l.indexOf b < l.indexOf a := by
  have hia : l.indexOf a < l.length := List.indexOf_lt_length.mpr ha
  have hib : l.indexOf b < l.length := List.indexOf_lt_length.mpr hb
  have hga : l.get ⟨l.indexOf a, hia⟩ = a := List.indexOf_get hia
  have hgb : l.get ⟨l.indexOf b, hib⟩ = b := List.indexOf_get hib
  rcases Nat.lt_trichotomy (l.indexOf a) (l.indexOf b) with hlt | heq | hgt
  · exfalso
    apply hnS
    have hS := List.pairwise_iff_get.mp hp ⟨_, hia⟩ ⟨_, hib⟩ hlt
    rw [hga, hgb] at hS
    exact hS
  · exfalso
    apply hne
    have h2 : l.get ⟨l.indexOf a, hia⟩ = l.get ⟨l.indexOf b, hib⟩ := by
      congr 1
      exact Fin.ext heq
    rw [hga, hgb] at h2
    exact h2.symm
  · exact hgt

/-- Rank argument: along the dependency relation, the position in the
returned order strictly increases (dependencies sit further right in the
deque, i.e. earlier in the reversed order). -/
theorem transGen_indexOf {ts : RawInput} {order : List String}
    (hnd : order.Nodup)
    (hclosed : ∀ n ∈ order, ∀ k ∈ getDeps ts n, k ∈ order)
    (hpair : order.Pairwise (fun a b => a ∉ getDeps ts b))
    (hnoself : ∀ n ∈ order, n ∉ getDeps ts n) :
    ∀ {a b : String}, Relation.TransGen (DepStep ts) a b → a ∈ order →
      b ∈ order ∧ order.indexOf a < order.indexOf b := by
  intro a b h ha
  induction h with
  | single hstep =>
    rename_i b2
    have hb : b2 ∈ order := hclosed a ha b2 hstep
    refine ⟨hb, ?_⟩
    exact pairwise_indexOf_lt hnd hpair hb ha
      (fun he => hnoself b2 hb (he ▸ hstep)) (fun hS => hS hstep)
  | tail h1 h2 ih =>
    rename_i b2 c2
    obtain ⟨hb, hlt⟩ := ih
    have hc : c2 ∈ order := hclosed b2 hb c2 h2
    have hlt2 : order.indexOf b2 < order.indexOf c2 :=
      pairwise_indexOf_lt hnd hpair hc hb
        (fun he => hnoself c2 hc (he ▸ h2)) (fun hS => hS h2)
    exact ⟨hc, hlt.trans hlt2⟩

/-- If the sort succeeds, the input really is acyclic. -/
theorem acyclic_of_sort_ok {ts : RawInput} {order : List String}
    (h : topological_sort ts = .ok order) : AcyclicInput ts := by
  obtain ⟨hnd, hkeys, hclosed, hpair, hnoself, _⟩ := topological_sort_props h
  intro n hcyc
  have hkey : n ∈ ts.map Prod.fst := by
    obtain ⟨c, hstep, _⟩ := Relation.TransGen.head'_iff.mp hcyc
    exact getDeps_ne_nil_key hstep
  have hn : n ∈ order := hkeys n hkey
  obtain ⟨_, hlt⟩ := transGen_indexOf hnd hclosed hpair hnoself hcyc hn
  omega

/-- Completeness: on an acyclic input the sort never fails. -/
theorem sort_complete {ts : RawInput} (hac : AcyclicInput ts) :
    ∃ order, topological_sort ts = .ok order := by
  rcases topological_sort_spec ts with ⟨m, _, hcyc⟩ | ⟨s2, hok, _⟩
  · exact absurd hcyc (hac m)
  · exact ⟨s2.order, hok⟩

/-- On a cyclic input the sort fails, always with the one fixed message. -/
theorem sort_cyclic_error {ts : RawInput}
    (hcyc : ∃ m, Relation.TransGen (DepStep ts) m m) :
    topological_sort ts = .error "Error. Graph contains cycle. Not a DAG." := by
  rcases topological_sort_spec ts with ⟨m, herr, _⟩ | ⟨s2, hok, _⟩
  · exact herr
  · exfalso
    obtain ⟨m, hm⟩ := hcyc
    exact acyclic_of_sort_ok hok m hm

/-! ## Construction -/

theorem namesOf_append (g1 g2 : Graph) : namesOf (g1 ++ g2) = namesOf g1 ++ namesOf g2 :=
  List.map_append _ _ _

theorem add_dependency_map (g : Graph) (n d : String) :
    add_dependency g n d = g.map (fun u =>
      ⟨u.name, u.data,
        (if u.name = n then u.dependencies ++ [d] else u.dependencies),
        (if u.name = d then u.predications ++ [n] else u.predications)⟩) := by
  unfold add_dependency updateTask
  rw [List.map_map]
  apply List.map_congr_left
  intro u _
  obtain ⟨nm, dt, dp, pr⟩ := u
  by_cases h1 : nm = n
  · by_cases h2 : nm = d
    · have h3 : n = d := by rw [← h1, h2]
      simp [Function.comp, h1, h2, h3]
    · have h3 : ¬(n = d) := fun he => h2 (h1.trans he)
      simp [Function.comp, h1, h2, h3]
  · by_cases h2 : nm = d
    · have h3 : ¬(d = n) := fun he => h1 (h2.trans he)
      simp [Function.comp, h1, h2, h3]
    · simp [Function.comp, h1, h2]

theorem namesOf_add_dependency (g : Graph) (n d : String) :
    namesOf (add_dependency g n d) = namesOf g := by
  unfold namesOf
  rw [add_dependency_map, List.map_map]
  apply List.map_congr_left
  intro u _
  rfl

theorem findTask_isSome {g : Graph} {d : String} (h : d ∈ namesOf g) :
    ∃ u, findTask g d = some u := by
  induction g with
  | nil => cases h
  | cons t g ih =>
    by_cases hc : t.name = d
    · exact ⟨t, by simp [findTask, hc]⟩
    · have h2 : d ∈ namesOf g := by
        rcases List.mem_cons.mp h with he | hm
        · exact absurd he.symm hc
        · exact hm
      obtain ⟨u, hu⟩ := ih h2
      exact ⟨u, by simp [findTask, hc, hu]⟩

theorem findTask_mem {g : Graph} {d : String} {u : Task} (h : findTask g d = some u) :
    u ∈ g ∧ u.name = d := by
  induction g with
  | nil => cases h
  | cons t g ih =>
    simp only [findTask] at h
    by_cases hc : t.name = d
    · rw [if_pos hc] at h
      cases h
      exact ⟨List.mem_cons_self _ _, hc⟩
    · rw [if_neg hc] at h
      obtain ⟨hm, hn⟩ := ih h
      exact ⟨List.mem_cons_of_mem _ hm, hn⟩

theorem findTask_of_mem_nodup {g : Graph} (hnd : NamesNodup g) {t : Task} (ht : t ∈ g) :
    findTask g t.name = some t := by
  induction g with
  | nil => cases ht
  | cons u g ih =>
    have hnd2 : (namesOf g).Nodup := (List.nodup_cons.mp hnd).2
    rcases List.mem_cons.mp ht with rfl | hm
    · simp [findTask]
    · have hne : u.name ≠ t.name := by
        intro he
        exact (List.nodup_cons.mp hnd).1 (he ▸ List.mem_map_of_mem Task.name hm)
      simp only [findTask, if_neg hne]
      exact ih hnd2 hm

theorem add_deps_cons (g : Graph) (n d : String) (ds : List String) :
    add_deps g n (d :: ds) =
      (match findTask g d with
       | some _ => add_deps (add_dependency g n d) n ds
       | none => Except.error ("KeyError: " ++ d)) := rfl

/-- `add_deps` never fails when every listed dependency already exists,
and its net effect is: the dependency list of `n` grows by `ds`, and each
task gains one predication entry `n` per occurrence of its name in
`ds`. -/
theorem add_deps_spec (n : String) : ∀ (ds : List String) (g : Graph),
    (∀ d ∈ ds, d ∈ namesOf g) →
    add_deps g n ds = .ok (g.map (depsAdded n ds)) := by
  unfold depsAdded
  intro ds
  induction ds with
  | nil =>
    intro g _
    show Except.ok g = _
    have he : ∀ u ∈ g, (⟨u.name, u.data,
        (if u.name = n then u.dependencies ++ [] else u.dependencies),
        u.predications ++ List.replicate (List.count u.name ([] : List String)) n⟩ : Task) = u := by
      intro u _
      obtain ⟨nm, dt, dp, pr⟩ := u
      by_cases h : nm = n
      · simp [h]
      · simp [h]
    rw [List.map_congr_left he, List.map_id']
  | cons d ds ih =>
    intro g hds
    obtain ⟨u0, hfind⟩ := findTask_isSome (hds d (List.mem_cons_self _ _))
    have hstep : add_deps g n (d :: ds) = add_deps (add_dependency g n d) n ds := by
      rw [add_deps_cons, hfind]
    have hsub : ∀ e ∈ ds, e ∈ namesOf (add_dependency g n d) := by
      intro e he
      rw [namesOf_add_dependency]
      exact hds e (List.mem_cons_of_mem _ he)
    rw [hstep, ih (add_dependency g n d) hsub]
    congr 1
    rw [add_dependency_map, List.map_map]
    apply List.map_congr_left
    intro u _
    show (⟨u.name, u.data,
        (if u.name = n then
          (if u.name = n then u.dependencies ++ [d] else u.dependencies) ++ ds
         else (if u.name = n then u.dependencies ++ [d] else u.dependencies)),
        (if u.name = d then u.predications ++ [n] else u.predications) ++
          List.replicate (List.count u.name ds) n⟩ : Task) = _
    have hdeps : (if u.name = n then
          (if u.name = n then u.dependencies ++ [d] else u.dependencies) ++ ds
        else (if u.name = n then u.dependencies ++ [d] else u.dependencies)) =
        (if u.name = n then u.dependencies ++ d :: ds else u.dependencies) := by
      by_cases h : u.name = n
      · simp [h, List.append_assoc]
      · simp [h]
    have hpreds : (if u.name = d then u.predications ++ [n] else u.predications) ++
          List.replicate (List.count u.name ds) n =
        u.predications ++ List.replicate (List.count u.name (d :: ds)) n := by
      by_cases h : u.name = d
      · have hc : List.count u.name (d :: ds) = List.count u.name ds + 1 := by
          simp [List.count_cons, h]
        rw [if_pos h, hc, List.append_assoc]
        congr 1
      · have hc : List.count u.name (d :: ds) = List.count u.name ds := by
          simp [List.count_cons, h]
        rw [if_neg h, hc]
    rw [hdeps, hpreds]

theorem namesOf_map_pres {F : Task → Task} (hF : ∀ u, (F u).name = u.name) (l : Graph) :
    namesOf (l.map F) = namesOf l := by
  unfold namesOf
  rw [List.map_map]
  apply List.map_congr_left
  intro u _
  exact hF u

theorem getDeps_getBody (ts : RawInput) (n : String) :
    getDeps ts n = (getBody ts n).deps.getD [] := by
  unfold getDeps getBody
  cases alookup ts n with
  | none => rfl
  | some b => rfl

theorem mem_names_iff {g : Graph} {d : String} : d ∈ namesOf g ↔ ∃ t ∈ g, t.name = d := by
  unfold namesOf
  constructor
  · intro h
    obtain ⟨t, ht, he⟩ := List.mem_map.mp h
    exact ⟨t, ht, he⟩
  · intro ⟨t, ht, he⟩
    exact he ▸ List.mem_map_of_mem Task.name ht

/-- Appending a freshly created (edge-less) task keeps all graph
invariants. -/
theorem append_fresh_inv {g : Graph} {t0 : Task} (hnd : NamesNodup g)
    (hnn : t0.name ∉ namesOf g) (ht0d : t0.dependencies = []) (ht0p : t0.predications = [])
    (hcs : CountSymm g) (hdc : DepClosed g) (hpc : PredClosed g) :
    NamesNodup (g ++ [t0]) ∧ CountSymm (g ++ [t0]) ∧ DepClosed (g ++ [t0]) ∧
      PredClosed (g ++ [t0]) := by
  have hnames : namesOf (g ++ [t0]) = namesOf g ++ [t0.name] := by
    rw [namesOf_append]
    rfl
  refine ⟨?_, ?_, ?_, ?_⟩
  · unfold NamesNodup
    rw [hnames]
    refine List.Nodup.append hnd (List.nodup_singleton _) ?_
    intro a ha hb
    rw [List.mem_singleton] at hb
    exact hnn (hb ▸ ha)
  · intro a ha b hb
    have hcz : ∀ c ∈ g, List.count t0.name c.dependencies = 0 := by
      intro c hc
      apply List.count_eq_zero_of_not_mem
      intro hmem
      exact hnn (hdc c hc t0.name hmem)
    have hpz : ∀ c ∈ g, List.count t0.name c.predications = 0 := by
      intro c hc
      apply List.count_eq_zero_of_not_mem
      intro hmem
      exact hnn (hpc c hc t0.name hmem)
    rcases List.mem_append.mp ha with ha2 | ha2
    · rcases List.mem_append.mp hb with hb2 | hb2
      · exact hcs a ha2 b hb2
      · rw [List.mem_singleton] at hb2
        subst hb2
        rw [hcz a ha2, ht0p]
        rfl
    · rw [List.mem_singleton] at ha2
      subst ha2
      rcases List.mem_append.mp hb with hb2 | hb2
      · rw [ht0d, hpz b hb2]
        rfl
      · rw [List.mem_singleton] at hb2
        subst hb2
        rw [ht0d, ht0p]
  · intro t ht d hd
    rw [hnames]
    rcases List.mem_append.mp ht with ht2 | ht2
    · exact List.mem_append_left _ (hdc t ht2 d hd)
    · rw [List.mem_singleton] at ht2
      subst ht2
      rw [ht0d] at hd
      cases hd
  · intro t ht p hp
    rw [hnames]
    rcases List.mem_append.mp ht with ht2 | ht2
    · exact List.mem_append_left _ (hpc t ht2 p hp)
    · rw [List.mem_singleton] at ht2
      subst ht2
      rw [ht0p] at hp
      cases hp

/-- The graph invariants survive the `add_deps` transformation. -/
theorem add_deps_map_inv (n : String) (ds : List String) {g1 : Graph}
    (hnd : NamesNodup g1) (hcs : CountSymm g1) (hdc : DepClosed g1) (hpc : PredClosed g1)
    (hds : ∀ d ∈ ds, d ∈ namesOf g1) (hn : n ∈ namesOf g1) :
    namesOf (g1.map (depsAdded n ds)) = namesOf g1 ∧
    NamesNodup (g1.map (depsAdded n ds)) ∧
    CountSymm (g1.map (depsAdded n ds)) ∧
    DepClosed (g1.map (depsAdded n ds)) ∧
    PredClosed (g1.map (depsAdded n ds)) := by
  have hnames : namesOf (g1.map (depsAdded n ds)) = namesOf g1 :=
    @namesOf_map_pres (depsAdded n ds) (fun u => rfl) g1
  refine ⟨hnames, ?_, ?_, ?_, ?_⟩
  · unfold NamesNodup
    rw [hnames]
    exact hnd
  · intro a' ha' b' hb'
    obtain ⟨a, ha, rfl⟩ := List.mem_map.mp ha'
    obtain ⟨b, hb, rfl⟩ := List.mem_map.mp hb'
    have hbase := hcs a ha b hb
    simp only [depsAdded, List.count_append, List.count_replicate]
    by_cases hA : a.name = n
    · rw [if_pos hA]
      have hbeq : (n == a.name) = true := by simp [hA]
      rw [hbeq, List.count_append, hbase, if_pos rfl]
    · rw [if_neg hA]
      have hbeq : (n == a.name) = false :=
        beq_eq_false_iff_ne.mpr (fun he => hA he.symm)
      rw [hbeq, hbase, if_neg (by decide), Nat.add_zero]
  · intro t ht d hd
    obtain ⟨u, hu, rfl⟩ := List.mem_map.mp ht
    rw [hnames]
    simp only [depsAdded] at hd
    by_cases hU : u.name = n
    · rw [if_pos hU] at hd
      rcases List.mem_append.mp hd with h1 | h1
      · exact hdc u hu d h1
      · exact hds d h1
    · rw [if_neg hU] at hd
      exact hdc u hu d hd
  · intro t ht p hp
    obtain ⟨u, hu, rfl⟩ := List.mem_map.mp ht
    rw [hnames]
    simp only [depsAdded] at hp
    rcases List.mem_append.mp hp with h1 | h1
    · exact hpc u hu p h1
    · have hpn : p = n := List.eq_of_mem_replicate h1
      exact hpn ▸ hn

theorem build_tasks_cons (ts : RawInput) (n : String) (rest : List String) (g : Graph) :
    build_tasks ts (n :: rest) g =
      (match (getBody ts n).deps with
       | none => build_tasks ts rest (g ++ [⟨n, (getBody ts n).data.getD [], [], []⟩])
       | some ds =>
         match add_deps (g ++ [⟨n, (getBody ts n).data.getD [], [], []⟩]) n ds with
         | .ok g2 => build_tasks ts rest g2
         | .error e => .error e) := rfl

theorem build_tasks_cons_none (ts : RawInput) (n : String) (rest : List String) (g : Graph)
    (h : (getBody ts n).deps = none) :
    build_tasks ts (n :: rest) g =
      build_tasks ts rest (g ++ [⟨n, (getBody ts n).data.getD [], [], []⟩]) := by
  rw [build_tasks_cons, h]

theorem build_tasks_cons_some (ts : RawInput) (n : String) (rest : List String) (g : Graph)
    (ds : List String) (h : (getBody ts n).deps = some ds) :
    build_tasks ts (n :: rest) g =
      (match add_deps (g ++ [⟨n, (getBody ts n).data.getD [], [], []⟩]) n ds with
       | .ok g2 => build_tasks ts rest g2
       | .error e => .error e) := by
  rw [build_tasks_cons, h]

/-- The construction loop never fails when the processing order lists
every dependency before its dependent, and the graph it returns carries
exactly the raw dependency lists and data, with count-symmetric and
closed edge lists. -/
theorem build_tasks_spec (ts : RawInput) :
    ∀ (rem : List String) (g : Graph),
      NamesNodup g → rem.Nodup → (∀ n ∈ rem, n ∉ namesOf g) →
      (∀ l1 n l2, rem = l1 ++ n :: l2 → ∀ k ∈ getDeps ts n, k ∈ namesOf g ++ l1) →
      CountSymm g → DepClosed g → PredClosed g →
      (∀ t ∈ g, t.dependencies = getDeps ts t.name) →
      (∀ t ∈ g, t.data = getData ts t.name) →
      ∃ g2, build_tasks ts rem g = .ok g2 ∧ namesOf g2 = namesOf g ++ rem ∧
        NamesNodup g2 ∧ CountSymm g2 ∧ DepClosed g2 ∧ PredClosed g2 ∧
        (∀ t ∈ g2, t.dependencies = getDeps ts t.name) ∧
        (∀ t ∈ g2, t.data = getData ts t.name) := by
  intro rem
  induction rem with
  | nil =>
    intro g h1 _ _ _ h5 h6 h7 h8 h9
    exact ⟨g, rfl, by simp, h1, h5, h6, h7, h8, h9⟩
  | cons n rest ih =>
    intro g hnd hrnd hfresh hord hcs hdc hpc hdd hda
    have hnn : n ∉ namesOf g := hfresh n (List.mem_cons_self _ _)
    have hrnd2 : rest.Nodup := (List.nodup_cons.mp hrnd).2
    have hdeps0 : ∀ k ∈ getDeps ts n, k ∈ namesOf g := by
      intro k hk
      have := hord [] n rest rfl k hk
      rw [List.append_nil] at this
      exact this
    -- the freshly created task
    have hfr := @append_fresh_inv g ⟨n, (getBody ts n).data.getD [], [], []⟩
      hnd hnn rfl rfl hcs hdc hpc
    obtain ⟨hnd1, hcs1, hdc1, hpc1⟩ := hfr
    have hnames1 : namesOf (g ++ [(⟨n, (getBody ts n).data.getD [], [], []⟩ : Task)]) =
        namesOf g ++ [n] := by
      rw [namesOf_append]
      rfl
    have hda1 : ∀ t ∈ g ++ [(⟨n, (getBody ts n).data.getD [], [], []⟩ : Task)],
        t.data = getData ts t.name := by
      intro t ht
      rcases List.mem_append.mp ht with ht2 | ht2
      · exact hda t ht2
      · rw [List.mem_singleton] at ht2
        subst ht2
        rfl
    have hfresh1 : ∀ m ∈ rest,
        m ∉ namesOf (g ++ [(⟨n, (getBody ts n).data.getD [], [], []⟩ : Task)]) := by
      intro m hm hmem
      rw [hnames1] at hmem
      rcases List.mem_append.mp hmem with h2 | h2
      · exact hfresh m (List.mem_cons_of_mem _ hm) h2
      · rw [List.mem_singleton] at h2
        exact (List.nodup_cons.mp hrnd).1 (h2 ▸ hm)
    have hord1 : ∀ l1 m l2, rest = l1 ++ m :: l2 → ∀ k ∈ getDeps ts m,
        k ∈ namesOf (g ++ [(⟨n, (getBody ts n).data.getD [], [], []⟩ : Task)]) ++ l1 := by
      intro l1 m l2 hsplit k hk
      have hsplit2 : n :: rest = (n :: l1) ++ m :: l2 := by rw [hsplit]; rfl
      have h2 := hord (n :: l1) m l2 hsplit2 k hk
      rw [hnames1]
      simp only [List.mem_append, List.mem_cons] at h2 ⊢
      tauto
    have hnmem1 : n ∈ namesOf (g ++ [(⟨n, (getBody ts n).data.getD [], [], []⟩ : Task)]) := by
      rw [hnames1]
      exact List.mem_append_right _ (List.mem_singleton.mpr rfl)
    cases hbody : (getBody ts n).deps with
    | none =>
      have hdd1 : ∀ t ∈ g ++ [(⟨n, (getBody ts n).data.getD [], [], []⟩ : Task)],
          t.dependencies = getDeps ts t.name := by
        intro t ht
        rcases List.mem_append.mp ht with ht2 | ht2
        · exact hdd t ht2
        · rw [List.mem_singleton] at ht2
          subst ht2
          show ([] : List String) = getDeps ts n
          rw [getDeps_getBody, hbody]
          rfl
      obtain ⟨g2, hok, hn2, p1, p2, p3, p4, p5, p6⟩ :=
        ih (g ++ [⟨n, (getBody ts n).data.getD [], [], []⟩]) hnd1 hrnd2 hfresh1 hord1
          hcs1 hdc1 hpc1 hdd1 hda1
      refine ⟨g2, ?_, ?_, p1, p2, p3, p4, p5, p6⟩
      · rw [build_tasks_cons_none ts n rest g hbody]
        exact hok
      · rw [hn2, hnames1, List.append_assoc]
        rfl
    | some ds =>
      have hds1 : ∀ d ∈ ds,
          d ∈ namesOf (g ++ [(⟨n, (getBody ts n).data.getD [], [], []⟩ : Task)]) := by
        intro d hd
        have hdk : d ∈ getDeps ts n := by
          rw [getDeps_getBody, hbody]
          exact hd
        rw [hnames1]
        exact List.mem_append_left _ (hdeps0 d hdk)
      have hadd := add_deps_spec n ds (g ++ [⟨n, (getBody ts n).data.getD [], [], []⟩]) hds1
      obtain ⟨hnm2, hnd2, hcs2, hdc2, hpc2⟩ :=
        add_deps_map_inv n ds hnd1 hcs1 hdc1 hpc1 hds1 hnmem1
      have hdd2 : ∀ t ∈ (g ++ [(⟨n, (getBody ts n).data.getD [], [], []⟩ : Task)]).map
          (depsAdded n ds), t.dependencies = getDeps ts t.name := by
        intro t ht
        obtain ⟨u, hu, rfl⟩ := List.mem_map.mp ht
        rcases List.mem_append.mp hu with hu2 | hu2
        · have hun : u.name ≠ n := by
            intro he
            exact hnn (he ▸ List.mem_map_of_mem Task.name hu2)
          show (if u.name = n then u.dependencies ++ ds else u.dependencies) = _
          rw [if_neg hun]
          exact hdd u hu2
        · rw [List.mem_singleton] at hu2
          subst hu2
          show (if n = n then [] ++ ds else []) = getDeps ts n
          rw [if_pos rfl, List.nil_append, getDeps_getBody, hbody]
          rfl
      have hda2 : ∀ t ∈ (g ++ [(⟨n, (getBody ts n).data.getD [], [], []⟩ : Task)]).map
          (depsAdded n ds), t.data = getData ts t.name := by
        intro t ht
        obtain ⟨u, hu, rfl⟩ := List.mem_map.mp ht
        exact hda1 u hu
      have hfresh2 : ∀ m ∈ rest, m ∉ namesOf
          ((g ++ [(⟨n, (getBody ts n).data.getD [], [], []⟩ : Task)]).map (depsAdded n ds)) := by
        intro m hm
        rw [hnm2]
        exact hfresh1 m hm
      have hord2 : ∀ l1 m l2, rest = l1 ++ m :: l2 → ∀ k ∈ getDeps ts m, k ∈ namesOf
          ((g ++ [(⟨n, (getBody ts n).data.getD [], [], []⟩ : Task)]).map (depsAdded n ds))
            ++ l1 := by
        intro l1 m l2 hsplit k hk
        rw [hnm2]
        exact hord1 l1 m l2 hsplit k hk
      obtain ⟨g2, hok, hn2, p1, p2, p3, p4, p5, p6⟩ :=
        ih _ hnd2 hrnd2 hfresh2 hord2 hcs2 hdc2 hpc2 hdd2 hda2
      refine ⟨g2, ?_, ?_, p1, p2, p3, p4, p5, p6⟩
      · rw [build_tasks_cons_some ts n rest g ds hbody, hadd]
        exact hok
      · rw [hn2, hnm2, hnames1, List.append_assoc]
        rfl

theorem build_graph_eq (ts : RawInput) {order : List String}
    (h : topological_sort ts = .ok order) :
    build_graph ts = build_tasks ts order.reverse [] := by
  unfold build_graph
  rw [h]

/-- Construction succeeds whenever the sort does, and the resulting graph
is exactly one task per name of the reversed order, carrying the raw
dependency list and data of its name, with count-symmetric closed
edges. -/
theorem build_graph_spec {ts : RawInput} {order : List String}
    (h : topological_sort ts = .ok order) :
    ∃ g, build_graph ts = .ok g ∧ namesOf g = order.reverse ∧
      NamesNodup g ∧ CountSymm g ∧ DepClosed g ∧ PredClosed g ∧
      (∀ t ∈ g, t.dependencies = getDeps ts t.name) ∧
      (∀ t ∈ g, t.data = getData ts t.name) := by
  obtain ⟨hnd, hkeys, hclosed, hpair, hnoself, hall⟩ := topological_sort_props h
  have hrnd : order.reverse.Nodup := List.nodup_reverse.mpr hnd
  have hrpair : order.reverse.Pairwise (fun a b => b ∉ getDeps ts a) := by
    rw [List.pairwise_reverse]
    exact hpair
  have hord : ∀ l1 m l2, order.reverse = l1 ++ m :: l2 → ∀ k ∈ getDeps ts m,
      k ∈ namesOf ([] : Graph) ++ l1 := by
    intro l1 m l2 hsplit k hk
    have hmrev : m ∈ order.reverse := by
      rw [hsplit]
      exact List.mem_append_right _ (List.mem_cons_self _ _)
    have hmord : m ∈ order := List.mem_reverse.mp hmrev
    have hkrev : k ∈ order.reverse := List.mem_reverse.mpr (hclosed m hmord k hk)
    rw [hsplit] at hkrev
    rw [hsplit] at hrpair
    obtain ⟨hp1, hp2, hcross⟩ := List.pairwise_append.mp hrpair
    have hp2c := List.pairwise_cons.mp hp2
    show k ∈ namesOf ([] : Graph) ++ l1
    rcases List.mem_append.mp hkrev with hk1 | hk2
    · exact List.mem_append_right _ hk1
    · rcases List.mem_cons.mp hk2 with rfl | hk3
      · exact absurd hk (hnoself k hmord)
      · exact absurd hk (hp2c.1 k hk3)
  obtain ⟨g, hok, hnames, p1, p2, p3, p4, p5, p6⟩ :=
    build_tasks_spec ts order.reverse [] List.nodup_nil hrnd
      (fun n _ hmem => by cases hmem) hord
      (fun a ha => by cases ha) (fun t ht => by cases ht) (fun t ht => by cases ht)
      (fun t ht => by cases ht) (fun t ht => by cases ht)
  refine ⟨g, ?_, ?_, p1, p2, p3, p4, p5, p6⟩
  · rw [build_graph_eq ts h]
    exact hok
  · rw [hnames]
    rfl

/-! ## Pruning: the net effect of deletion -/

theorem filter_erase_ne (x : String) : ∀ l : List String,
    (l.erase x).filter (fun d => d ≠ x) = l.filter (fun d => d ≠ x) := by
  intro l
  induction l with
  | nil => rfl
  | cons a l ih =>
    by_cases h : a = x
    · subst h
      rw [List.erase_cons_head]
      rw [List.filter_cons_of_neg (by simp)]
    · rw [List.erase_cons_tail (by simp [h])]
      rw [List.filter_cons_of_pos (by simp [h]), List.filter_cons_of_pos (by simp [h]), ih]

theorem eraseN_count (x : String) : ∀ (c : Nat) (l : List String), List.count x l = c →
    eraseN x l c = l.filter (fun d => d ≠ x) := by
  intro c
  induction c with
  | zero =>
    intro l hc
    show l = _
    symm
    rw [List.filter_eq_self]
    intro a ha
    have hx : x ∉ l := by
      rw [← List.count_pos_iff]
      omega
    have hne : a ≠ x := fun he => hx (he ▸ ha)
    simp [hne]
  | succ c ih =>
    intro l hc
    show eraseN x (l.erase x) c = _
    have hce : List.count x (l.erase x) = c := by
      rw [List.count_erase_self]
      omega
    rw [ih (l.erase x) hce]
    exact filter_erase_ne x l

theorem foldl_update_deps_erase (x : String) :
    ∀ (ps : List String) (g : Graph),
      ps.foldl (fun acc p => updateTask acc p
        (fun u => { u with dependencies := u.dependencies.erase x })) g =
      g.map (fun u =>
        { u with dependencies := eraseN x u.dependencies (List.count u.name ps) }) := by
  intro ps
  induction ps with
  | nil =>
    intro g
    show g = _
    symm
    have he : ∀ u ∈ g, ({ u with dependencies := eraseN x u.dependencies (List.count u.name ([] : List String)) } : Task) = u := by
      intro u _
      rfl
    rw [List.map_congr_left he, List.map_id']
  | cons p ps ih =>
    intro g
    show ps.foldl _ (updateTask g p _) = _
    rw [ih (updateTask g p (fun u => { u with dependencies := u.dependencies.erase x }))]
    unfold updateTask
    rw [List.map_map]
    apply List.map_congr_left
    intro u _
    obtain ⟨nm, dt, dp, pr⟩ := u
    by_cases h : nm = p
    · have hc : List.count nm (p :: ps) = List.count nm ps + 1 := by
        simp [List.count_cons, h]
      simp [Function.comp, h, hc, eraseN]
    · have hc : List.count nm (p :: ps) = List.count nm ps := by
        simp [List.count_cons, h]
      simp [Function.comp, h, hc]

theorem foldl_update_preds_erase (x : String) :
    ∀ (ps : List String) (g : Graph),
      ps.foldl (fun acc p => updateTask acc p
        (fun u => { u with predications := u.predications.erase x })) g =
      g.map (fun u =>
        { u with predications := eraseN x u.predications (List.count u.name ps) }) := by
  intro ps
  induction ps with
  | nil =>
    intro g
    show g = _
    symm
    have he : ∀ u ∈ g, ({ u with predications := eraseN x u.predications (List.count u.name ([] : List String)) } : Task) = u := by
      intro u _
      rfl
    rw [List.map_congr_left he, List.map_id']
  | cons p ps ih =>
    intro g
    show ps.foldl _ (updateTask g p _) = _
    rw [ih (updateTask g p (fun u => { u with predications := u.predications.erase x }))]
    unfold updateTask
    rw [List.map_map]
    apply List.map_congr_left
    intro u _
    obtain ⟨nm, dt, dp, pr⟩ := u
    by_cases h : nm = p
    · have hc : List.count nm (p :: ps) = List.count nm ps + 1 := by
        simp [List.count_cons, h]
      simp [Function.comp, h, hc, eraseN]
    · have hc : List.count nm (p :: ps) = List.count nm ps := by
        simp [List.count_cons, h]
      simp [Function.comp, h, hc]

/-- The net per-task effect of `Task.delete`. -/
theorem task_delete_map (g : Graph) (x : Task) :
    Task.delete g x = g.map (fun u =>
      ⟨u.name, u.data,
        eraseN x.name u.dependencies (List.count u.name x.predications),
        eraseN x.name u.predications (List.count u.name x.dependencies)⟩) := by
  unfold Task.delete
  rw [foldl_update_deps_erase, foldl_update_preds_erase, List.map_map]
  apply List.map_congr_left
  intro u _
  obtain ⟨nm, dt, dp, pr⟩ := u
  rfl

theorem count_filter_ne (s a : String) (h : a ≠ s) : ∀ l : List String,
    List.count a (l.filter (fun d => d ≠ s)) = List.count a l := by
  intro l
  induction l with
  | nil => rfl
  | cons d l ih =>
    by_cases hd : d = s
    · have h1 : (d :: l).filter (fun d2 => d2 ≠ s) = l.filter (fun d2 => d2 ≠ s) := by
        simp only [List.filter_cons]
        rw [if_neg (by simp [hd])]
      rw [h1, ih, List.count_cons]
      have hbe : (a == d) = false := beq_eq_false_iff_ne.mpr (fun he => h (he.trans hd))
      have hne : ¬ d = a := fun he => h (he ▸ hd)
      simp [hbe, hne]
    · have h1 : (d :: l).filter (fun d2 => d2 ≠ s) = d :: l.filter (fun d2 => d2 ≠ s) := by
        simp only [List.filter_cons]
        rw [if_pos (by simpa using hd)]
      rw [h1, List.count_cons, List.count_cons, ih]

theorem filter_name_map (F : Task → Task) (hF : ∀ u, (F u).name = u.name)
    (p : String → Bool) : ∀ g : Graph,
    (g.map F).filter (fun u => p u.name) = (g.filter (fun u => p u.name)).map F := by
  intro g
  induction g with
  | nil => rfl
  | cons t g ih =>
    show ((F t) :: g.map F).filter (fun u => p u.name) =
      ((t :: g).filter (fun u => p u.name)).map F
    by_cases h : p t.name = true
    · have h1 : ((F t) :: g.map F).filter (fun u => p u.name) =
          (F t) :: (g.map F).filter (fun u => p u.name) := by
        simp only [List.filter_cons]
        rw [if_pos (by rw [hF]; exact h)]
      have h2 : (t :: g).filter (fun u => p u.name) = t :: g.filter (fun u => p u.name) := by
        simp only [List.filter_cons]
        rw [if_pos h]
      rw [h1, h2, ih]
      rfl
    · have h1 : ((F t) :: g.map F).filter (fun u => p u.name) =
          (g.map F).filter (fun u => p u.name) := by
        simp only [List.filter_cons]
        rw [if_neg (by rw [hF]; exact h)]
      have h2 : (t :: g).filter (fun u => p u.name) = g.filter (fun u => p u.name) := by
        simp only [List.filter_cons]
        rw [if_neg h]
      rw [h1, h2, ih]

theorem namesOf_filter_name (p : String → Bool) : ∀ g : Graph,
    namesOf (g.filter (fun u => p u.name)) = (namesOf g).filter p := by
  intro g
  induction g with
  | nil => rfl
  | cons t g ih =>
    show namesOf ((t :: g).filter (fun u => p u.name)) = (t.name :: namesOf g).filter p
    by_cases h : p t.name = true
    · have h1 : (t :: g).filter (fun u => p u.name) = t :: g.filter (fun u => p u.name) := by
        simp only [List.filter_cons]
        rw [if_pos h]
      have h2 : (t.name :: namesOf g).filter p = t.name :: (namesOf g).filter p := by
        simp only [List.filter_cons]
        rw [if_pos h]
      rw [h1, h2]
      show t.name :: namesOf (g.filter (fun u => p u.name)) = t.name :: (namesOf g).filter p
      rw [ih]
    · have h1 : (t :: g).filter (fun u => p u.name) = g.filter (fun u => p u.name) := by
        simp only [List.filter_cons]
        rw [if_neg h]
      have h2 : (t.name :: namesOf g).filter p = (namesOf g).filter p := by
        simp only [List.filter_cons]
        rw [if_neg h]
      rw [h1, h2]
      exact ih

/-- Under the graph invariants, `delete_task` is exactly `pruneOne`. -/
theorem delete_task_eq_pruneOne {g : Graph} (s : String) (hnd : NamesNodup g)
    (hcs : CountSymm g) (hdc : DepClosed g) (hpc : PredClosed g) :
    delete_task g s = pruneOne g s := by
  unfold delete_task
  cases hfind : findTask g s with
  | none =>
    have hns : s ∉ namesOf g := by
      intro hmem
      obtain ⟨u, hu⟩ := findTask_isSome hmem
      rw [hfind] at hu
      cases hu
    unfold pruneOne
    have hfg : g.filter (fun u => u.name ≠ s) = g := by
      rw [List.filter_eq_self]
      intro u hu
      have hne : u.name ≠ s := fun he => hns (he ▸ List.mem_map_of_mem Task.name hu)
      simp [hne]
    rw [hfg]
    symm
    have he : ∀ u ∈ g, (⟨u.name, u.data, u.dependencies.filter (fun d => d ≠ s),
        u.predications.filter (fun p2 => p2 ≠ s)⟩ : Task) = u := by
      intro u hu
      have hd : u.dependencies.filter (fun d => d ≠ s) = u.dependencies := by
        rw [List.filter_eq_self]
        intro d hd2
        have hne : d ≠ s := fun he => hns (he ▸ hdc u hu d hd2)
        simp [hne]
      have hp : u.predications.filter (fun p2 => p2 ≠ s) = u.predications := by
        rw [List.filter_eq_self]
        intro p2 hp2
        have hne : p2 ≠ s := fun he => hns (he ▸ hpc u hu p2 hp2)
        simp [hne]
      rw [hd, hp]
    rw [List.map_congr_left he, List.map_id']
  | some x =>
    obtain ⟨hxg, hxn⟩ := findTask_mem hfind
    subst hxn
    show (Task.delete g x).filter (fun u => u.name ≠ x.name) = pruneOne g x.name
    rw [task_delete_map g x]
    rw [filter_name_map (fun u => ⟨u.name, u.data,
      eraseN x.name u.dependencies (List.count u.name x.predications),
      eraseN x.name u.predications (List.count u.name x.dependencies)⟩)
      (fun u => rfl) (fun nm => nm ≠ x.name) g]
    unfold pruneOne
    apply List.map_congr_left
    intro u hu
    have hug : u ∈ g := List.mem_of_mem_filter hu
    have h1 : List.count u.name x.predications = List.count x.name u.dependencies :=
      (hcs u hug x hxg).symm
    have h2 : List.count u.name x.dependencies = List.count x.name u.predications :=
      hcs x hxg u hug
    rw [h1, h2, eraseN_count x.name _ _ rfl, eraseN_count x.name _ _ rfl]

/-- The graph invariants survive `pruneOne`, and the surviving names are
exactly the other names. -/
theorem pruneOne_inv {g : Graph} (s : String) (hnd : NamesNodup g) (hcs : CountSymm g)
    (hdc : DepClosed g) (hpc : PredClosed g) :
    NamesNodup (pruneOne g s) ∧ CountSymm (pruneOne g s) ∧ DepClosed (pruneOne g s) ∧
      PredClosed (pruneOne g s) ∧
      namesOf (pruneOne g s) = (namesOf g).filter (fun m => m ≠ s) := by
  have hnames : namesOf (pruneOne g s) = (namesOf g).filter (fun m => m ≠ s) := by
    unfold pruneOne
    rw [@namesOf_map_pres (fun u => ⟨u.name, u.data, u.dependencies.filter (fun d => d ≠ s),
      u.predications.filter (fun p2 => p2 ≠ s)⟩) (fun u => rfl)]
    exact namesOf_filter_name (fun m => decide (m ≠ s)) g
  refine ⟨?_, ?_, ?_, ?_, hnames⟩
  · unfold NamesNodup
    rw [hnames]
    exact hnd.filter _
  · intro a' ha' b' hb'
    obtain ⟨a, ha, rfl⟩ := List.mem_map.mp ha'
    obtain ⟨b, hb, rfl⟩ := List.mem_map.mp hb'
    have hbs : b.name ≠ s := by
      have hmf := List.of_mem_filter hb
      simpa using hmf
    have has : a.name ≠ s := by
      have hmf := List.of_mem_filter ha
      simpa using hmf
    show List.count b.name (a.dependencies.filter (fun d => d ≠ s)) =
      List.count a.name (b.predications.filter (fun p2 => p2 ≠ s))
    rw [count_filter_ne s b.name hbs, count_filter_ne s a.name has]
    exact hcs a (List.mem_of_mem_filter ha) b (List.mem_of_mem_filter hb)
  · intro t ht d hd
    obtain ⟨u, hu, rfl⟩ := List.mem_map.mp ht
    have hug : u ∈ g := List.mem_of_mem_filter hu
    rw [hnames]
    have hd2 := List.mem_filter.mp hd
    apply List.mem_filter.mpr
    exact ⟨hdc u hug d hd2.1, hd2.2⟩
  · intro t ht p2 hp2
    obtain ⟨u, hu, rfl⟩ := List.mem_map.mp ht
    have hug : u ∈ g := List.mem_of_mem_filter hu
    rw [hnames]
    have hp3 := List.mem_filter.mp hp2
    apply List.mem_filter.mpr
    exact ⟨hpc u hug p2 hp3.1, hp3.2⟩

theorem strings_filter_ne_notmem (s : String) (R : List String) (l : List String) :
    (l.filter (fun d => d ≠ s)).filter (fun d => decide (d ∉ R)) =
      l.filter (fun d => decide (d ∉ s :: R)) := by
  rw [List.filter_filter]
  apply List.filter_congr
  intro d _
  by_cases h1 : d = s
  · simp [h1]
  · by_cases h2 : d ∈ R <;> simp [h1, h2]

/-- Pruning one name and then a set of names is pruning the whole set. -/
theorem pruneAll_pruneOne (g : Graph) (s : String) (R : List String) :
    pruneAll (pruneOne g s) R = pruneAll g (s :: R) := by
  unfold pruneAll pruneOne
  rw [filter_name_map (fun u => ⟨u.name, u.data, u.dependencies.filter (fun d => d ≠ s),
      u.predications.filter (fun p2 => p2 ≠ s)⟩) (fun u => rfl) (fun nm => decide (nm ∉ R))]
  rw [List.map_map, List.filter_filter]
  have hpred : ∀ u ∈ g,
      ((decide (u.name ∉ R) && decide (u.name ≠ s)) = (decide (u.name ∉ s :: R) : Bool)) := by
    intro u _
    by_cases h1 : u.name = s
    · simp [h1]
    · by_cases h2 : u.name ∈ R <;> simp [h1, h2]
  rw [List.filter_congr hpred]
  apply List.map_congr_left
  intro u _
  show (⟨u.name, u.data,
    (u.dependencies.filter (fun d => d ≠ s)).filter (fun d => decide (d ∉ R)),
    (u.predications.filter (fun p2 => p2 ≠ s)).filter (fun p2 => decide (p2 ∉ R))⟩ : Task) =
    ⟨u.name, u.data, u.dependencies.filter (fun d => decide (d ∉ s :: R)),
      u.predications.filter (fun p2 => decide (p2 ∉ s :: R))⟩
  rw [strings_filter_ne_notmem, strings_filter_ne_notmem]

/-- Iterated `delete_task` over a list of names has the net effect
`pruneAll`, provided the graph invariants hold at the start. -/
theorem foldl_delete_eq_pruneAll : ∀ (R : List String) (g : Graph),
    NamesNodup g → CountSymm g → DepClosed g → PredClosed g →
    R.foldl delete_task g = pruneAll g R := by
  intro R
  induction R with
  | nil =>
    intro g _ _ _ _
    show g = pruneAll g []
    unfold pruneAll
    have h1 : g.filter (fun u => decide (u.name ∉ ([] : List String))) = g := by
      rw [List.filter_eq_self]
      intro u _
      simp
    rw [h1]
    symm
    have he : ∀ u ∈ g,
        (⟨u.name, u.data, u.dependencies.filter (fun d => decide (d ∉ ([] : List String))),
          u.predications.filter (fun p2 => decide (p2 ∉ ([] : List String)))⟩ : Task) = u := by
      intro u _
      obtain ⟨nm, dt, dp, pr⟩ := u
      simp
    rw [List.map_congr_left he, List.map_id']
  | cons s R ih =>
    intro g hnd hcs hdc hpc
    show R.foldl delete_task (delete_task g s) = pruneAll g (s :: R)
    rw [delete_task_eq_pruneOne s hnd hcs hdc hpc]
    obtain ⟨hnd2, hcs2, hdc2, hpc2, _⟩ := pruneOne_inv s hnd hcs hdc hpc
    rw [ih (pruneOne g s) hnd2 hcs2 hdc2 hpc2, pruneAll_pruneOne]

/-- `remove_inactive_tasks` computes `pruneAll` at the inactive closure. -/
theorem remove_inactive_spec {g : Graph} (hnd : NamesNodup g) (hcs : CountSymm g)
    (hdc : DepClosed g) (hpc : PredClosed g) :
    remove_inactive_tasks g = pruneAll g (inactive_tasks g) := by
  unfold remove_inactive_tasks
  exact foldl_delete_eq_pruneAll (inactive_tasks g) g hnd hcs hdc hpc

theorem count_filter_notmem (R : List String) (a : String) (h : a ∉ R) : ∀ l : List String,
    List.count a (l.filter (fun d => decide (d ∉ R))) = List.count a l := by
  intro l
  induction l with
  | nil => rfl
  | cons d l ih =>
    by_cases hd : d ∈ R
    · have h1 : (d :: l).filter (fun d2 => decide (d2 ∉ R)) =
          l.filter (fun d2 => decide (d2 ∉ R)) := by
        simp only [List.filter_cons]
        rw [if_neg (by simp [hd])]
      rw [h1, ih, List.count_cons]
      have hne : ¬ d = a := fun he => h (he ▸ hd)
      have hbe : (a == d) = false := beq_eq_false_iff_ne.mpr (fun he => hne he.symm)
      simp [hbe, hne]
    · have h1 : (d :: l).filter (fun d2 => decide (d2 ∉ R)) =
          d :: l.filter (fun d2 => decide (d2 ∉ R)) := by
        simp only [List.filter_cons]
        rw [if_pos (by simpa using hd)]
      rw [h1, List.count_cons, List.count_cons, ih]

theorem pruneAll_names (g : Graph) (R : List String) :
    namesOf (pruneAll g R) = (namesOf g).filter (fun m => decide (m ∉ R)) := by
  unfold pruneAll
  rw [@namesOf_map_pres (fun u => ⟨u.name, u.data,
    u.dependencies.filter (fun d => decide (d ∉ R)),
    u.predications.filter (fun p2 => decide (p2 ∉ R))⟩) (fun u => rfl)]
  exact namesOf_filter_name (fun m => decide (m ∉ R)) g

theorem mem_pruneAll {g : Graph} {R : List String} {t : Task} (h : t ∈ pruneAll g R) :
    ∃ u ∈ g, t.name = u.name ∧ t.data = u.data ∧ t.name ∉ R ∧
      ∀ d ∈ t.dependencies, d ∈ u.dependencies := by
  unfold pruneAll at h
  obtain ⟨u, hu, rfl⟩ := List.mem_map.mp h
  have hug : u ∈ g := List.mem_of_mem_filter hu
  have hname : u.name ∉ R := by
    have hmf := List.of_mem_filter hu
    simpa using hmf
  refine ⟨u, hug, rfl, rfl, hname, ?_⟩
  intro d hd
  exact List.mem_of_mem_filter hd

/-- The graph invariants survive `pruneAll`. -/
theorem pruneAll_inv {g : Graph} (R : List String) (hnd : NamesNodup g) (hcs : CountSymm g)
    (hdc : DepClosed g) (hpc : PredClosed g) :
    NamesNodup (pruneAll g R) ∧ CountSymm (pruneAll g R) ∧ DepClosed (pruneAll g R) ∧
      PredClosed (pruneAll g R) := by
  have hnames := pruneAll_names g R
  refine ⟨?_, ?_, ?_, ?_⟩
  · unfold NamesNodup
    rw [hnames]
    exact hnd.filter _
  · intro a' ha' b' hb'
    obtain ⟨a, ha, rfl⟩ := List.mem_map.mp ha'
    obtain ⟨b, hb, rfl⟩ := List.mem_map.mp hb'
    have has : a.name ∉ R := by
      have hmf := List.of_mem_filter ha
      simpa using hmf
    have hbs : b.name ∉ R := by
      have hmf := List.of_mem_filter hb
      simpa using hmf
    show List.count b.name (a.dependencies.filter (fun d => decide (d ∉ R))) =
      List.count a.name (b.predications.filter (fun p2 => decide (p2 ∉ R)))
    rw [count_filter_notmem R b.name hbs, count_filter_notmem R a.name has]
    exact hcs a (List.mem_of_mem_filter ha) b (List.mem_of_mem_filter hb)
  · intro t ht d hd
    obtain ⟨u, hu, rfl⟩ := List.mem_map.mp ht
    rw [hnames]
    have hd2 := List.mem_filter.mp hd
    apply List.mem_filter.mpr
    exact ⟨hdc u (List.mem_of_mem_filter hu) d hd2.1, hd2.2⟩
  · intro t ht p2 hp2
    obtain ⟨u, hu, rfl⟩ := List.mem_map.mp ht
    rw [hnames]
    have hp3 := List.mem_filter.mp hp2
    apply List.mem_filter.mpr
    exact ⟨hpc u (List.mem_of_mem_filter hu) p2 hp3.1, hp3.2⟩

/-- The graph invariants survive a prune. -/
theorem remove_inactive_inv {g : Graph} (hnd : NamesNodup g) (hcs : CountSymm g)
    (hdc : DepClosed g) (hpc : PredClosed g) :
    NamesNodup (remove_inactive_tasks g) ∧ CountSymm (remove_inactive_tasks g) ∧
      DepClosed (remove_inactive_tasks g) ∧ PredClosed (remove_inactive_tasks g) := by
  rw [remove_inactive_spec hnd hcs hdc hpc]
  exact pruneAll_inv _ hnd hcs hdc hpc

/-! ## The downward closure of an inactive task -/

theorem mem_go_down_dep {g : Graph} {t td x : Task} {f : Nat}
    (hd : td.name ∈ t.dependencies) (hf : findTask g td.name = some td)
    (hx : x ∈ go_down g f td) : x ∈ go_down g (f + 1) t := by
  show x ∈ (t.dependencies.map (fun d =>
    match findTask g d with
    | some td2 => go_down g f td2
    | none => [])).flatten ++ [t]
  apply List.mem_append_left
  apply List.mem_flatten.mpr
  refine ⟨go_down g f td, ?_, hx⟩
  apply List.mem_map.mpr
  refine ⟨td.name, hd, ?_⟩
  rw [hf]

theorem mem_inactive_tasks_of_go_down {g : Graph} {t x : Task} (ht : t ∈ g)
    (hi : t.isInactive = true) (hx : x ∈ go_down g g.length t) :
    x.name ∈ inactive_tasks g := by
  unfold inactive_tasks
  rw [List.mem_dedup]
  apply List.mem_flatten.mpr
  refine ⟨(go_down g g.length t).map Task.name, ?_, ?_⟩
  · apply List.mem_map.mpr
    exact ⟨t, ht, by simp [hi]⟩
  · exact List.mem_map.mpr ⟨x, hx, rfl⟩

theorem inactive_tasks_eq_nil_of_active {g : Graph} (h : ∀ t ∈ g, t.isInactive = false) :
    inactive_tasks g = [] := by
  unfold inactive_tasks
  have hflat : (g.map (fun t => if t.isInactive then
      (go_down g g.length t).map Task.name else [])).flatten = [] := by
    rw [List.flatten_eq_nil_iff]
    intro l hl
    obtain ⟨t, ht, he⟩ := List.mem_map.mp hl
    rw [h t ht] at he
    simpa using he.symm
  rw [hflat]
  rfl

theorem remove_inactive_eq_self_of_active {g : Graph} (h : ∀ t ∈ g, t.isInactive = false) :
    remove_inactive_tasks g = g := by
  unfold remove_inactive_tasks
  rw [inactive_tasks_eq_nil_of_active h]
  rfl

/-! ## Edge symmetry and the serialized form -/

theorem memSymm_of_countSymm {g : Graph} (h : CountSymm g) : MemSymm g := by
  intro a ha b hb
  have hc := h a ha b hb
  constructor
  · intro hmem
    by_contra hno
    have h0 : List.count a.name b.predications = 0 := List.count_eq_zero.mpr hno
    rw [h0] at hc
    exact (List.count_eq_zero.mp hc) hmem
  · intro hmem
    by_contra hno
    have h0 : List.count b.name a.dependencies = 0 := List.count_eq_zero.mpr hno
    rw [h0] at hc
    exact (List.count_eq_zero.mp hc.symm) hmem

theorem nodup_keys_alookup {α : Type} : ∀ {ts : List (String × α)},
    (ts.map Prod.fst).Nodup → ∀ {n : String} {b : α}, (n, b) ∈ ts → alookup ts n = some b := by
  intro ts
  induction ts with
  | nil =>
    intro _ n b h
    cases h
  | cons p rest ih =>
    intro hnd n b h
    obtain ⟨k, v⟩ := p
    have hnd2 : (rest.map Prod.fst).Nodup := (List.nodup_cons.mp hnd).2
    have hknotin : k ∉ rest.map Prod.fst := (List.nodup_cons.mp hnd).1
    show (if k = n then some v else alookup rest n) = some b
    rcases List.mem_cons.mp h with he | hm
    · cases he
      rw [if_pos rfl]
    · have hne : k ≠ n := by
        intro he
        apply hknotin
        rw [he]
        exact List.mem_map_of_mem Prod.fst hm
      rw [if_neg hne]
      exact ih hnd2 hm

theorem keys_to_dict (g : Graph) : (to_dict g).map Prod.fst = namesOf g := by
  unfold to_dict namesOf
  rw [List.map_map]
  rfl

theorem alookup_to_dict {g : Graph} (hnd : NamesNodup g) {t : Task} (ht : t ∈ g) :
    alookup (to_dict g) t.name = some ⟨some t.dependencies, some t.data⟩ := by
  apply nodup_keys_alookup
  · rw [keys_to_dict]
    exact hnd
  · unfold to_dict
    exact List.mem_map.mpr ⟨t, ht, rfl⟩

theorem getDeps_to_dict {g : Graph} (hnd : NamesNodup g) {t : Task} (ht : t ∈ g) :
    getDeps (to_dict g) t.name = t.dependencies := by
  unfold getDeps
  rw [alookup_to_dict hnd ht]
  rfl

theorem getData_to_dict {g : Graph} (hnd : NamesNodup g) {t : Task} (ht : t ∈ g) :
    getData (to_dict g) t.name = t.data := by
  unfold getData getBody
  rw [alookup_to_dict hnd ht]
  rfl

theorem getDeps_to_dict_none {g : Graph} {n : String} (hn : n ∉ namesOf g) :
    getDeps (to_dict g) n = [] := by
  unfold getDeps
  cases ha : alookup (to_dict g) n with
  | none => rfl
  | some b =>
    exfalso
    have hmem : n ∈ (to_dict g).map Prod.fst := List.mem_map.mpr ⟨(n, b), alookup_mem ha, rfl⟩
    rw [keys_to_dict] at hmem
    exact absurd hmem hn

/-! ## Rendering -/

/-- Claim C8: on the two-task example, the graph construction yields the
build/test graph, the rendered dot text is exactly `exC8dot`, which
contains exactly one edge statement, directed from build's synthesized
node id `task_0` to test's node id `task_1`; build's node label contains
the segment `lang | go`; and the two synthesized identifiers are
distinct. -/
theorem claim_C8 :
    TaskDAG_init exC8 = .ok exC8graph ∧
    translate_to_dot exC8graph = exC8dot ∧
    strCount exC8dot " -> " = 1 ∧
    strCount exC8dot "task_0 -> task_1;" = 1 ∧
    idOf (dotIds (to_dict exC8graph)) "build" = "task_0" ∧
    idOf (dotIds (to_dict exC8graph)) "test" = "task_1" ∧
    strCount exC8dot "[label=\"build | \x7blang | go\x7d\"" = 1 ∧
    strCount exC8dot "lang | go" = 1 ∧
    ("task_0" : String) ≠ "task_1" :=
  ⟨rfl, rfl, by decide, by decide, rfl, rfl, by decide, by decide, by decide⟩

/-- Claim C10: a task of the graph whose attribute mapping is empty is
serialized by `to_dict` with an (empty) `data` entry nonetheless present,
so the node statement `translate_to_dot` emits for it carries the label
`<name> | ` — the task name immediately followed by the separator and no
attribute segments — and never the bare task name alone. -/
theorem claim_C10 (g : Graph) (t : Task) (ht : t ∈ g) (hd : t.data = []) :
    (t.name, RawBody.mk (some t.dependencies) (some [])) ∈ to_dict g ∧
    dotNodeStmt (dotIds (to_dict g)) t.name ⟨some t.dependencies, some []⟩ =
      "\n" ++ idOf (dotIds (to_dict g)) t.name ++ " [label=\"" ++ t.name ++ " | " ++
        "\" shape=Mrecord]" ∧
    t.name ++ " | " ≠ t.name := by
  refine ⟨?_, ?_, ?_⟩
  · simp only [to_dict, List.mem_map]
    exact ⟨t, ht, by rw [hd]⟩
  · rw [dotNodeStmt, show dotParams ⟨some t.dependencies, some []⟩ = " | " from rfl]
  · intro hc
    have h3 := congrArg String.length hc
    rw [String.length_append] at h3
    have h4 : (" | " : String).length = 3 := rfl
    omega

theorem claim_C10_witness :
    ((⟨"test", [], ["build"], []⟩ : Task) ∈ exC8graph ∧ Task.data ⟨"test", [], ["build"], []⟩ = []) ∧
    (("test", RawBody.mk (some ["build"]) (some [])) ∈ to_dict exC8graph ∧
      dotNodeStmt (dotIds (to_dict exC8graph)) "test" ⟨some ["build"], some []⟩ =
        "\n" ++ idOf (dotIds (to_dict exC8graph)) "test" ++ " [label=\"" ++ "test" ++ " | " ++
          "\" shape=Mrecord]" ∧
      ("test" : String) ++ " | " ≠ "test") :=
  ⟨⟨by decide, rfl⟩, claim_C10 exC8graph ⟨"test", [], ["build"], []⟩ (by decide) rfl⟩

/-! ## Unknown dependencies and cycles: the concrete behaviour -/

/-- Counterexample to claim C3: on the input whose entry "a" names the
unknown dependency "b", construction does not fail at all — it succeeds
and the resulting graph does contain a task named "b". -/
theorem claim_C3_counterexample :
    TaskDAG_init exC3 = .ok exC3graph ∧ "b" ∈ namesOf exC3graph :=
  ⟨rfl, by decide⟩

/-- Counterexample to claim C4: on the cyclic input over the nodes "u"
and "w", construction fails, but with the fixed message
"Error. Graph contains cycle. Not a DAG.", which names neither of the two
nodes of the offending cycle. -/
theorem claim_C4_counterexample :
    TaskDAG_init exC4 = .error "Error. Graph contains cycle. Not a DAG." ∧
    strCount "Error. Graph contains cycle. Not a DAG." "u" = 0 ∧
    strCount "Error. Graph contains cycle. Not a DAG." "w" = 0 :=
  ⟨rfl, by decide, by decide⟩

/-! ## The remaining claims -/

/-- Claim C1: pruning-closure correctness.  In a well-formed graph with a
chain A -> B -> C (A depends on B, B on C) whose head A carries status
"done" or "failed", the prune removes A, B and C; A's name is gone from
every surviving task's dependency list; and every task outside the
inactive closure survives. -/
theorem claim_C1 {g : Graph} (hnd : NamesNodup g) (hcs : CountSymm g)
    (hdc : DepClosed g) (hpc : PredClosed g) {A B C : Task}
    (hA : A ∈ g) (hB : B ∈ g) (hC : C ∈ g)
    (hAB : B.name ∈ A.dependencies) (hBC : C.name ∈ B.dependencies)
    (hABn : A.name ≠ B.name) (hBCn : B.name ≠ C.name) (hACn : A.name ≠ C.name)
    (hstat : (alookup A.data "status").getD "" = "done" ∨
             (alookup A.data "status").getD "" = "failed") :
    A.name ∉ namesOf (remove_inactive_tasks g) ∧
    B.name ∉ namesOf (remove_inactive_tasks g) ∧
    C.name ∉ namesOf (remove_inactive_tasks g) ∧
    (∀ D ∈ remove_inactive_tasks g, A.name ∉ D.dependencies) ∧
    (∀ D ∈ g, D.name ∉ inactive_tasks g → D.name ∈ namesOf (remove_inactive_tasks g)) := by
  have hiA : A.isInactive = true := by
    unfold Task.isInactive
    rcases hstat with h | h <;> rw [h] <;> decide
  have hlen : 3 ≤ g.length := by
    have hsub : ({A.name, B.name, C.name} : Finset String) ⊆ (namesOf g).toFinset := by
      intro x hx
      rw [List.mem_toFinset]
      rcases Finset.mem_insert.mp hx with rfl | hx2
      · exact List.mem_map_of_mem Task.name hA
      rcases Finset.mem_insert.mp hx2 with rfl | hx3
      · exact List.mem_map_of_mem Task.name hB
      rw [Finset.mem_singleton] at hx3
      subst hx3
      exact List.mem_map_of_mem Task.name hC
    have hcard : ({A.name, B.name, C.name} : Finset String).card = 3 := by
      rw [Finset.card_insert_of_not_mem (by simp [hABn, hACn]),
        Finset.card_insert_of_not_mem (by simp [hBCn]), Finset.card_singleton]
    have h1 := Finset.card_le_card hsub
    have h2 := (namesOf g).toFinset_card_le
    have h3 : (namesOf g).length = g.length := List.length_map g Task.name
    omega
  obtain ⟨f, hf⟩ : ∃ f, g.length = f + 2 := ⟨g.length - 2, by omega⟩
  have hfB : findTask g B.name = some B := findTask_of_mem_nodup hnd hB
  have hfC : findTask g C.name = some C := findTask_of_mem_nodup hnd hC
  have hBin : B ∈ go_down g (f + 2) A :=
    mem_go_down_dep hAB hfB (self_mem_go_down g (f + 1) B)
  have hCin : C ∈ go_down g (f + 2) A :=
    mem_go_down_dep hAB hfB (mem_go_down_dep hBC hfC (self_mem_go_down g f C))
  have hAname : A.name ∈ inactive_tasks g := mem_inactive_tasks_of_inactive hA hiA
  have hBname : B.name ∈ inactive_tasks g := by
    apply mem_inactive_tasks_of_go_down hA hiA
    rw [hf]
    exact hBin
  have hCname : C.name ∈ inactive_tasks g := by
    apply mem_inactive_tasks_of_go_down hA hiA
    rw [hf]
    exact hCin
  have hspec := remove_inactive_spec hnd hcs hdc hpc
  have hnames : namesOf (remove_inactive_tasks g) =
      (namesOf g).filter (fun m => decide (m ∉ inactive_tasks g)) := by
    rw [hspec]
    exact pruneAll_names g (inactive_tasks g)
  refine ⟨?_, ?_, ?_, ?_, ?_⟩
  · rw [hnames]
    intro hmem
    have hmf := List.of_mem_filter hmem
    simp at hmf
    exact hmf hAname
  · rw [hnames]
    intro hmem
    have hmf := List.of_mem_filter hmem
    simp at hmf
    exact hmf hBname
  · rw [hnames]
    intro hmem
    have hmf := List.of_mem_filter hmem
    simp at hmf
    exact hmf hCname
  · intro D hD hmemA
    rw [hspec] at hD
    obtain ⟨u, hu, rfl⟩ := List.mem_map.mp hD
    have hmf := List.of_mem_filter hmemA
    simp at hmf
    exact hmf hAname
  · intro D hD hnotin
    rw [hnames]
    apply List.mem_filter.mpr
    exact ⟨List.mem_map_of_mem Task.name hD, by simpa using hnotin⟩

theorem claim_C1_witness :
    (NamesNodup exC1graph ∧ CountSymm exC1graph ∧ DepClosed exC1graph ∧
      PredClosed exC1graph ∧
      (⟨"A", [("status", "done")], ["B"], ["D"]⟩ : Task) ∈ exC1graph ∧
      (⟨"B", [], ["C"], ["A"]⟩ : Task) ∈ exC1graph ∧
      (⟨"C", [], [], ["B"]⟩ : Task) ∈ exC1graph) ∧
    (("A" : String) ∉ namesOf (remove_inactive_tasks exC1graph) ∧
     ("B" : String) ∉ namesOf (remove_inactive_tasks exC1graph) ∧
     ("C" : String) ∉ namesOf (remove_inactive_tasks exC1graph) ∧
     (∀ D ∈ remove_inactive_tasks exC1graph, ("A" : String) ∉ D.dependencies) ∧
     (∀ D ∈ exC1graph, D.name ∉ inactive_tasks exC1graph →
        D.name ∈ namesOf (remove_inactive_tasks exC1graph))) :=
  ⟨⟨by unfold NamesNodup; decide, by unfold CountSymm; decide, by unfold DepClosed; decide,
    by unfold PredClosed; decide, by decide, by decide, by decide⟩,
   @claim_C1 exC1graph (by unfold NamesNodup; decide) (by unfold CountSymm; decide)
     (by unfold DepClosed; decide) (by unfold PredClosed; decide)
     ⟨"A", [("status", "done")], ["B"], ["D"]⟩ ⟨"B", [], ["C"], ["A"]⟩ ⟨"C", [], [], ["B"]⟩
     (by decide) (by decide) (by decide) (by decide) (by decide) (by decide) (by decide)
     (by decide) (Or.inl rfl)⟩

/-- Claim C2: edge symmetry holds for every graph the construction
produces, and again after the prune the constructor runs on it. -/
theorem claim_C2 {ts : RawInput} {g : Graph} (h : build_graph ts = .ok g) :
    MemSymm g ∧ MemSymm (remove_inactive_tasks g) := by
  cases hs : topological_sort ts with
  | error e =>
    exfalso
    unfold build_graph at h
    rw [hs] at h
    exact Except.noConfusion h
  | ok order =>
    obtain ⟨g2, hok, _, hnd, hcs, hdc, hpc, _, _⟩ := build_graph_spec hs
    rw [h] at hok
    have hge : g = g2 := Except.ok.inj hok
    subst hge
    obtain ⟨_, hcs2, _, _⟩ := remove_inactive_inv hnd hcs hdc hpc
    exact ⟨memSymm_of_countSymm hcs, memSymm_of_countSymm hcs2⟩

theorem claim_C2_witness :
    build_graph exC8 = Except.ok exC8graph ∧
    (MemSymm exC8graph ∧ MemSymm (remove_inactive_tasks exC8graph)) :=
  ⟨rfl, @claim_C2 exC8 exC8graph rfl⟩

/-- Claim C3 (amended): an entry whose `deps` list names a task that is
not a key of the input is NOT rejected — on an acyclic input the
construction succeeds and silently creates a task for the missing name,
with no dependencies and no data. -/
theorem claim_C3_amended {ts : RawInput} (hac : AcyclicInput ts) {n d : String}
    (hd : d ∈ getDeps ts n) (hdk : d ∉ ts.map Prod.fst) :
    ∃ g, build_graph ts = .ok g ∧
      ∃ t ∈ g, t.name = d ∧ t.dependencies = [] ∧ t.data = [] := by
  obtain ⟨order, hok⟩ := sort_complete hac
  obtain ⟨hnd, hkeys, hclosed, _, _, _⟩ := topological_sort_props hok
  obtain ⟨g, hg, hnames, _, _, _, _, hdeps, hdata⟩ := build_graph_spec hok
  have hnkey : n ∈ ts.map Prod.fst := getDeps_ne_nil_key hd
  have hnord : n ∈ order := hkeys n hnkey
  have hdord : d ∈ order := hclosed n hnord d hd
  have hdg : d ∈ namesOf g := by
    rw [hnames]
    exact List.mem_reverse.mpr hdord
  obtain ⟨t, ht, htn⟩ := mem_names_iff.mp hdg
  refine ⟨g, hg, t, ht, htn, ?_, ?_⟩
  · rw [hdeps t ht, htn]
    unfold getDeps
    cases ha : alookup ts d with
    | none => rfl
    | some b =>
      exfalso
      exact hdk (List.mem_map.mpr ⟨(d, b), alookup_mem ha, rfl⟩)
  · rw [hdata t ht, htn]
    unfold getData getBody
    cases ha : alookup ts d with
    | none => rfl
    | some b =>
      exfalso
      exact hdk (List.mem_map.mpr ⟨(d, b), alookup_mem ha, rfl⟩)

theorem claim_C3_amended_witness :
    (AcyclicInput exC3 ∧ "b" ∈ getDeps exC3 "a" ∧ "b" ∉ exC3.map Prod.fst) ∧
    (∃ g, build_graph exC3 = .ok g ∧
      ∃ t ∈ g, t.name = "b" ∧ t.dependencies = [] ∧ t.data = []) :=
  have hac : AcyclicInput exC3 := @acyclic_of_sort_ok exC3 ["a", "b"] rfl
  ⟨⟨hac, by decide, by decide⟩, @claim_C3_amended exC3 hac "a" "b" (by decide) (by decide)⟩

/-- Claim C4 (amended): a cyclic dependency relation makes construction
fail — no graph, not even a partial one, is returned — but the error is
the one fixed message, which names no node. -/
theorem claim_C4_amended {ts : RawInput}
    (hcyc : ∃ m, Relation.TransGen (DepStep ts) m m) :
    TaskDAG_init ts = .error "Error. Graph contains cycle. Not a DAG." := by
  unfold TaskDAG_init build_graph
  rw [sort_cyclic_error hcyc]

theorem claim_C4_amended_witness :
    (∃ m, Relation.TransGen (DepStep exC4) m m) ∧
    TaskDAG_init exC4 = Except.error "Error. Graph contains cycle. Not a DAG." :=
  have hcyc : ∃ m, Relation.TransGen (DepStep exC4) m m :=
    ⟨"u", Relation.TransGen.head (show DepStep exC4 "u" "w" by unfold DepStep; decide)
      (Relation.TransGen.single (show DepStep exC4 "w" "u" by unfold DepStep; decide))⟩
  ⟨hcyc, claim_C4_amended hcyc⟩

/-- Claim C5: on an acyclic input the sort succeeds, and in the REVERSED
output every dependency of a name appears strictly before that name, so
the builder (which walks the reversed order) always finds each task's
dependencies already created — and indeed the build succeeds. -/
theorem claim_C5 {ts : RawInput} (hac : AcyclicInput ts) :
    ∃ order, topological_sort ts = .ok order ∧
      (∀ l1 n l2, order.reverse = l1 ++ n :: l2 → ∀ k ∈ getDeps ts n, k ∈ l1) ∧
      ∃ g, build_graph ts = .ok g := by
  obtain ⟨order, hok⟩ := sort_complete hac
  obtain ⟨hnd, hkeys, hclosed, hpair, hnoself, _⟩ := topological_sort_props hok
  have hrpair : order.reverse.Pairwise (fun a b => b ∉ getDeps ts a) := by
    rw [List.pairwise_reverse]
    exact hpair
  refine ⟨order, hok, ?_, ?_⟩
  · intro l1 n l2 hsplit k hk
    have hmrev : n ∈ order.reverse := by
      rw [hsplit]
      exact List.mem_append_right _ (List.mem_cons_self _ _)
    have hmord : n ∈ order := List.mem_reverse.mp hmrev
    have hkrev : k ∈ order.reverse := List.mem_reverse.mpr (hclosed n hmord k hk)
    rw [hsplit] at hkrev hrpair
    obtain ⟨hp1, hp2, hcross⟩ := List.pairwise_append.mp hrpair
    have hp2c := List.pairwise_cons.mp hp2
    rcases List.mem_append.mp hkrev with hk1 | hk2
    · exact hk1
    · rcases List.mem_cons.mp hk2 with rfl | hk3
      · exact absurd hk (hnoself k hmord)
      · exact absurd hk (hp2c.1 k hk3)
  · obtain ⟨g, hg, _⟩ := build_graph_spec hok
    exact ⟨g, hg⟩

theorem claim_C5_witness :
    AcyclicInput exC8 ∧
    (∃ order, topological_sort exC8 = .ok order ∧
      (∀ l1 n l2, order.reverse = l1 ++ n :: l2 → ∀ k ∈ getDeps exC8 n, k ∈ l1) ∧
      ∃ g, build_graph exC8 = .ok g) :=
  have hac : AcyclicInput exC8 := @acyclic_of_sort_ok exC8 ["test", "build"] rfl
  ⟨hac, claim_C5 hac⟩

/-- Claim C9: on an acyclic input (with the unique keys of a mapping) the
sort output repeats no name and covers every key and every name occurring
in any entry's deps list. -/
theorem claim_C9 {ts : RawInput} (hk : (ts.map Prod.fst).Nodup) (hac : AcyclicInput ts) :
    ∃ order, topological_sort ts = .ok order ∧ order.Nodup ∧
      (∀ n ∈ ts.map Prod.fst, n ∈ order) ∧
      (∀ n b, (n, b) ∈ ts → ∀ d ∈ b.deps.getD [], d ∈ order) := by
  obtain ⟨order, hok⟩ := sort_complete hac
  obtain ⟨hnd, hkeys, hclosed, _, _, _⟩ := topological_sort_props hok
  refine ⟨order, hok, hnd, hkeys, ?_⟩
  intro n b hmem d hd
  have ha : alookup ts n = some b := nodup_keys_alookup hk hmem
  have hdeps : getDeps ts n = b.deps.getD [] := by
    unfold getDeps
    rw [ha]
  have hn : n ∈ order := hkeys n (List.mem_map.mpr ⟨(n, b), hmem, rfl⟩)
  apply hclosed n hn
  rw [hdeps]
  exact hd

theorem claim_C9_witness :
    ((exC3.map Prod.fst).Nodup ∧ AcyclicInput exC3) ∧
    (∃ order, topological_sort exC3 = .ok order ∧ order.Nodup ∧
      (∀ n ∈ exC3.map Prod.fst, n ∈ order) ∧
      (∀ n b, (n, b) ∈ exC3 → ∀ d ∈ b.deps.getD [], d ∈ order)) :=
  have hac : AcyclicInput exC3 := @acyclic_of_sort_ok exC3 ["a", "b"] rfl
  ⟨⟨by decide, hac⟩, claim_C9 (by decide) hac⟩

/-- Claim C6: round trip.  Serializing an already-pruned graph (one the
constructor returned) and constructing again yields a graph with the same
task-name set and the same dependency-edge set. -/
theorem claim_C6 {ts : RawInput} {g0 : Graph} (h : TaskDAG_init ts = .ok g0) :
    ∃ g1, TaskDAG_init (to_dict g0) = .ok g1 ∧
      (∀ m, m ∈ namesOf g1 ↔ m ∈ namesOf g0) ∧
      (∀ m d, EdgeMem g1 m d ↔ EdgeMem g0 m d) := by
  unfold TaskDAG_init at h
  cases hb : build_graph ts with
  | error e =>
    rw [hb] at h
    exact Except.noConfusion h
  | ok g =>
    rw [hb] at h
    have hg0 : remove_inactive_tasks g = g0 := Except.ok.inj h
    cases hs : topological_sort ts with
    | error e =>
      exfalso
      unfold build_graph at hb
      rw [hs] at hb
      exact Except.noConfusion hb
    | ok order =>
      obtain ⟨g2, hok2, _, hnd, hcs, hdc, hpc, hdeps2, _⟩ := build_graph_spec hs
      rw [hb] at hok2
      have hge : g = g2 := Except.ok.inj hok2
      subst hge
      have hai : AcyclicInput ts := acyclic_of_sort_ok hs
      have hrspec := remove_inactive_spec hnd hcs hdc hpc
      obtain ⟨hnd0, hcs0, hdc0, hpc0⟩ :
          NamesNodup g0 ∧ CountSymm g0 ∧ DepClosed g0 ∧ PredClosed g0 := by
        rw [← hg0]
        exact remove_inactive_inv hnd hcs hdc hpc
      have hact0 : ∀ t ∈ g0, t.isInactive = false := by
        intro t ht
        rw [← hg0] at ht
        exact surviving_task_active ht
      have hprov : ∀ t ∈ g0, ∀ d2 ∈ t.dependencies, d2 ∈ getDeps ts t.name := by
        intro t ht d2 hd2
        rw [← hg0, hrspec] at ht
        obtain ⟨u, hu, hn, _, _, hsub⟩ := mem_pruneAll ht
        rw [hn, ← hdeps2 u hu]
        exact hsub d2 hd2
      have hstep : ∀ a b, DepStep (to_dict g0) a b → DepStep ts a b := by
        intro a b hab
        unfold DepStep at hab ⊢
        by_cases hmem : a ∈ namesOf g0
        · obtain ⟨t, ht, htn⟩ := mem_names_iff.mp hmem
          subst htn
          rw [getDeps_to_dict hnd0 ht] at hab
          exact hprov t ht b hab
        · rw [getDeps_to_dict_none hmem] at hab
          cases hab
      have hac1 : AcyclicInput (to_dict g0) := by
        intro m hm
        exact hai m (Relation.TransGen.mono hstep hm)
      obtain ⟨order1, hok1⟩ := sort_complete hac1
      obtain ⟨hnd1o, hkeys1, hclosed1, _, _, hallN1⟩ := topological_sort_props hok1
      obtain ⟨g1, hg1, hnames1, hnd1, _, _, _, hdeps1, hdata1⟩ := build_graph_spec hok1
      have hset : ∀ m, m ∈ namesOf g1 ↔ m ∈ namesOf g0 := by
        intro m
        rw [hnames1]
        constructor
        · intro hm
          have hmo : m ∈ order1 := List.mem_reverse.mp hm
          have hall := hallN1 m hmo
          unfold allNames at hall
          rcases List.mem_append.mp hall with hk | hd2
          · rw [keys_to_dict] at hk
            exact hk
          · obtain ⟨l, hl, hml⟩ := List.mem_flatten.mp hd2
            obtain ⟨p, hp, hpe⟩ := List.mem_map.mp hl
            obtain ⟨t, ht, rfl⟩ := List.mem_map.mp hp
            subst hpe
            have hml2 : m ∈ t.dependencies := hml
            exact hdc0 t ht m hml2
        · intro hm
          apply List.mem_reverse.mpr
          apply hkeys1
          rw [keys_to_dict]
          exact hm
      have hedge : ∀ m d2, EdgeMem g1 m d2 ↔ EdgeMem g0 m d2 := by
        intro m d2
        constructor
        · rintro ⟨t1, ht1, htn, hd2⟩
          subst htn
          rw [hdeps1 t1 ht1] at hd2
          by_cases hmem : t1.name ∈ namesOf g0
          · obtain ⟨t0, ht0, htn0⟩ := mem_names_iff.mp hmem
            rw [← htn0] at hd2
            rw [getDeps_to_dict hnd0 ht0] at hd2
            exact ⟨t0, ht0, htn0, hd2⟩
          · rw [getDeps_to_dict_none hmem] at hd2
            cases hd2
        · rintro ⟨t0, ht0, htn, hd2⟩
          have hm1 : m ∈ namesOf g1 := (hset m).mpr (htn ▸ List.mem_map_of_mem Task.name ht0)
          obtain ⟨t1, ht1, htn1⟩ := mem_names_iff.mp hm1
          refine ⟨t1, ht1, htn1, ?_⟩
          rw [hdeps1 t1 ht1, htn1, ← htn, getDeps_to_dict hnd0 ht0]
          exact hd2
      have hact1 : ∀ t ∈ g1, t.isInactive = false := by
        intro t ht
        have hmem : t.name ∈ namesOf g0 := (hset t.name).mp (List.mem_map_of_mem Task.name ht)
        obtain ⟨t0, ht0, htn0⟩ := mem_names_iff.mp hmem
        have hdata : t.data = t0.data := by
          rw [hdata1 t ht, ← htn0, getData_to_dict hnd0 ht0]
        rw [isInactive_of_data_eq hdata]
        exact hact0 t0 ht0
      refine ⟨g1, ?_, hset, hedge⟩
      unfold TaskDAG_init
      rw [hg1]
      show Except.ok (remove_inactive_tasks g1) = Except.ok g1
      rw [remove_inactive_eq_self_of_active hact1]

theorem claim_C6_witness :
    TaskDAG_init exC8 = Except.ok exC8graph ∧
    (∃ g1, TaskDAG_init (to_dict exC8graph) = .ok g1 ∧
      (∀ m, m ∈ namesOf g1 ↔ m ∈ namesOf exC8graph) ∧
      (∀ m d, EdgeMem g1 m d ↔ EdgeMem exC8graph m d)) :=
  ⟨rfl, @claim_C6 exC8 exC8graph rfl⟩

end TaskDag
